import Mathlib

/-!
Verification of the dependency-ordered synthetic record generator
(`src/dynamic_generation.py`) and two endpoints of `src/main.py`
(`create_order`, `get_shipping_estimate`) of the test-data-hackathon
repository.

The Python code is shallowly embedded: SQLAlchemy models become `Model`
values carrying their column metadata (the reflection loop of
`create_DAG` lines 64-74 reads exactly the foreign-key columns off the
model class, so `modelFks` is derived from the column list); the
module-global mutable state (`created_models`, the faker PRNG and its
unique-value registry, the `random` module) is threaded explicitly as a
`GenState`; Python exceptions become explicit error results.
-/

namespace TestData

/-- Primitive column kinds, one per SQLAlchemy type that appears as a key
of `faker_mapper` (dynamic_generation.py lines 113-127); `other` stands
for any type outside that table (the `if col_type in faker_mapper` miss,
line 187). -/
inductive CType where
  | string | text | integer | bigInteger | smallInteger
  | float | numeric | date | datetime | time | boolean | uuid | other
deriving DecidableEq, Repr

/-- A column of a model's table: name, flags and type as read off the
SQLAlchemy `Column` (`col.name`, `col.primary_key`,
`col.autoincrement == True`, `col.unique`, `type(col.type)`), plus the
target table name of its foreign key when it has one
(`fk.target_fullname.split(".")[0]`, line 73). -/
structure Col where
  name : String
  primary_key : Bool
  autoincrement : Bool
  unique : Bool
  ctype : CType
  fk : Option String
deriving DecidableEq, Repr

/-- A SQLAlchemy model class as `create_DAG` sees it: the class name
(`model.__name__`), the table name (`model.__table__.name`) and the
columns of its table in declaration order. -/
structure Model where
  clsName : String
  tableName : String
  cols : List Col
deriving DecidableEq, Repr

/-- The `(attr_name, dependency_name)` pairs collected into
`dependent_on[model]` by the attribute scan of `create_DAG`
(lines 67-74): one pair per column that carries a foreign key. -/
def modelFks (m : Model) : List (String × String) :=
  m.cols.filterMap (fun c => c.fk.map (fun t => (c.name, t)))

/-- Errors of the DAG builder. `circular` models the
`Exception(f"Circular dependency detected involving model: ...")` of
line 85 and carries `model.__name__`; `unknown` models the `KeyError` a
`model_names[...]` lookup raises for an unregistered table name
(lines 92, 100); `fuel` is an artifact of the embedding (the Python
recursion has no fuel), proved unreachable below. -/
inductive DErr where
  | circular (name : String)
  | unknown (name : String)
  | fuel
deriving DecidableEq, Repr

/-- The `model_names` dict lookup (line 92 / 100): `model_names` is
built by insertion with overwrite (line 65), so a lookup returns the
last model registered under the name; a miss raises `KeyError`. -/
def lookupName (ms : List Model) (n : String) : Except DErr Model :=
  match ms.reverse.find? (fun d => d.tableName == n) with
  | some d => .ok d
  | none => .error (.unknown n)

/-- The `temp2` loop of lines 98-100: re-resolve every dependency name of
a model into its model, keeping the attribute name. -/
def resolveAll (ms : List Model) : List (String × String) → Except DErr (List (String × Model))
  | [] => .ok []
  | (a, n) :: rest =>
    match lookupName ms n with
    | .error e => .error e
    | .ok d =>
      match resolveAll ms rest with
      | .error e => .error e
      | .ok ds => .ok ((a, d) :: ds)

/-- One entry of `sorted_order`: a model paired with its resolved
foreign-key list (line 101). -/
abbrev Entry := Model × List (String × Model)

/-- The three mutable collections of `create_DAG` (lines 76-78):
`sorted_order`, `visited` and `visiting`. Sets are represented as lists
in insertion order; only membership, add and remove are used. -/
structure DState where
  sortedOrder : List Entry
  visited : List Model
  visiting : List Model
deriving DecidableEq, Repr

/-- The dependency loop of `dfs_visit` (lines 89-93): resolve each
dependency name and visit it with the given recursive visitor. -/
def dfsList (visit : DState → Model → Except DErr DState) (ms : List Model) :
    DState → List (String × String) → Except DErr DState
  | st, [] => .ok st
  | st, (_, n) :: rest =>
    match lookupName ms n with
    | .error e => .error e
    | .ok dm =>
      match visit st dm with
      | .error e => .error e
      | .ok st' => dfsList visit ms st' rest

/-- `dfs_visit` (lines 80-101). The fuel argument only bounds the
recursion depth of the embedding; `create_DAG` supplies enough fuel for
it never to run out (proved below). -/
def dfsVisit (ms : List Model) : Nat → DState → Model → Except DErr DState
  | 0, _, _ => .error .fuel
  | f + 1, st, m =>
    if m ∈ st.visited then .ok st
    else if m ∈ st.visiting then .error (.circular m.clsName)
    else
      match dfsList (dfsVisit ms f) ms { st with visiting := st.visiting ++ [m] } (modelFks m) with
      | .error e => .error e
      | .ok st' =>
        match resolveAll ms (modelFks m) with
        | .error e => .error e
        | .ok deps =>
          .ok { sortedOrder := st'.sortedOrder ++ [(m, deps)],
                visited := st'.visited ++ [m],
                visiting := st'.visiting.erase m }

/-- The top-level loop of `create_DAG` (lines 103-105). -/
def dfsAll (ms : List Model) (fuel : Nat) : DState → List Model → Except DErr DState
  | st, [] => .ok st
  | st, m :: rest =>
    if m ∈ st.visited then dfsAll ms fuel st rest
    else
      match dfsVisit ms fuel st m with
      | .error e => .error e
      | .ok st' => dfsAll ms fuel st' rest

/-- `create_DAG` (lines 60-107): DFS topological sort of the models.
The fuel `ms.length + 1` dominates the recursion depth (each nested
`dfs_visit` call pushes a new model onto `visiting`, and `visiting` is a
duplicate-free sublist of the models). -/
def create_DAG (ms : List Model) : Except DErr (List Entry) :=
  match dfsAll ms (ms.length + 1) ⟨[], [], []⟩ ms with
  | .error e => .error e
  | .ok st => .ok st.sortedOrder

/-- Models of the entries of an output sequence. -/
def orderModels (order : List Entry) : List Model := order.map (·.1)

/-- The topological-order property, scanned from the left: every entry's
resolved dependencies are among the models listed before it. -/
def depsInAux : List Model → List Entry → Prop
  | _, [] => True
  | seen, e :: rest => (∀ p ∈ e.2, p.2 ∈ seen) ∧ depsInAux (seen ++ [e.1]) rest

/-- Every entity of the sequence appears strictly after all entities it
references. -/
def respectsDeps (order : List Entry) : Prop := depsInAux [] order

/-- All foreign-key names of all models resolve (no `KeyError`). -/
def wfNames (ms : List Model) : Prop :=
  ∀ m ∈ ms, ∀ p ∈ modelFks m, ∃ d, lookupName ms p.2 = .ok d

instance (ms : List Model) : Decidable (wfNames ms) := by
  unfold wfNames
  have : ∀ n, Decidable (∃ d, lookupName ms n = .ok d) := by
    intro n
    match h : lookupName ms n with
    | .ok d => exact isTrue ⟨d, rfl⟩
    | .error e => exact isFalse (fun ⟨d, hd⟩ => by exact nomatch hd)
  exact inferInstance

/-- The successors of a model in the dependency graph: the models its
foreign keys resolve to. -/
def succs (ms : List Model) (m : Model) : List Model :=
  (modelFks m).filterMap (fun p =>
    match lookupName ms p.2 with
    | .ok d => some d
    | .error _ => none)

/-- `chainToB ms l t`: the list `l` is a dependency path whose last
element has an edge to `t` (vacuously true for `l = []`). -/
def chainToB (ms : List Model) : List Model → Model → Bool
  | [], _ => true
  | [v], t => (succs ms v).any (fun y => decide (y = t))
  | v :: w :: vs, t => (succs ms v).any (fun y => decide (y = w)) && chainToB ms (w :: vs) t

/-- The foreign-key references of the models contain a cycle: some model
reaches itself along resolved foreign-key edges. -/
def HasCycle (ms : List Model) : Prop :=
  ∃ m s, m ∈ ms ∧ (m :: s).Nodup ∧ (∀ x ∈ s, x ∈ ms) ∧ chainToB ms (m :: s) m = true

/-- Bounded reachability in the dependency graph (at least one edge,
at most `k` edges); decidable, used to discharge acyclicity on concrete
inputs. -/
def reachB (ms : List Model) : Nat → Model → Model → Bool
  | 0, _, _ => false
  | k + 1, x, t => (succs ms x).any (fun y => decide (y = t) || reachB ms k y t)

/-- An edge of the dependency graph: `t` is one of the models the
foreign keys of `x` resolve to. -/
def edgeB (ms : List Model) (x t : Model) : Bool :=
  (succs ms x).any (fun y => decide (y = t))

/-! ## The generator (`generate_model`, `get_mapper_f`, lines 110-200)

Synthesized values are abstracted to naturals. The faker library is an
external collaborator; it is modelled by a value stream
`gen : String → Nat → Nat` giving, for each provider method (keyed by
method name and fixed arguments, the key of faker's per-method unique
registry) and each PRNG position, the value that call returns. The
`random` module is modelled by a stream `rnd : Nat → Nat`;
`random.randint(0, n-1)` consumes one draw and reduces it into the range
(uniformly distributed draws give uniformly distributed indices), and
raises `ValueError` when the range is empty (`n = 0`). -/

/-- Association-list lookup (first match), used for Python dicts whose
keys are never duplicated. -/
def alGet {α β : Type} [DecidableEq α] : List (α × β) → α → Option β
  | [], _ => none
  | (k, v) :: rest, x => if k = x then some v else alGet rest x

/-- A generated record: the `data` dict, column name to value, in
insertion order (`model(**data)` stores exactly these attributes). -/
abbrev Record := List (String × Nat)

/-- The `.id` attribute read off a generated instance (line 146): the
value stored for the column named `id` (every model of the repository
has such a primary-key column). -/
def recordId (r : Record) : Nat := (alGet r "id").getD 0

/-- What `get_mapper_f` returns: `idx` for the `lambda: number` of
line 169, `call u key` for a faker provider call (`u` true when drawn
from `fake.unique`, line 172; `key` identifies the method and its fixed
arguments). -/
inductive FRet where
  | idx (n : Nat)
  | call (u : Bool) (key : String)
deriving DecidableEq, Repr

/-- The `faker_mapper` table (lines 113-127), keys encoding the method
and its fixed kwargs. -/
def fakerMapper : CType → Option String
  | .string => some "words"
  | .text => some "paragraph:nb_sentences=3"
  | .integer => some "random_int:min=1,max=10000"
  | .bigInteger => some "random_int:min=100000,max=999999999"
  | .smallInteger => some "random_int:min=1,max=100"
  | .float => some "pyfloat"
  | .numeric => some "pydecimal:left_digits=5,right_digits=2,positive=True"
  | .date => some "date_object"
  | .datetime => some "date_time_this_decade"
  | .time => some "time_object"
  | .boolean => some "boolean"
  | .uuid => some "uuid4"
  | .other => none

/-- Python's `str.lower` on one ASCII character. -/
def lowerChar (c : Char) : Char :=
  if 'A' ≤ c ∧ c ≤ 'Z' then Char.ofNat (c.toNat + 32) else c

/-- Python's `str.lower` (`col.name.lower()`, line 175). -/
def strLower (s : String) : String := ⟨s.toList.map lowerChar⟩

/-- Whether a needle starts the hay (character lists). -/
def strStarts : List Char → List Char → Bool
  | [], _ => true
  | _ :: _, [] => false
  | a :: as, b :: bs => decide (a = b) && strStarts as bs

/-- Whether the needle occurs in the hay (character lists). -/
def charsContain : List Char → List Char → Bool
  | [], needle => needle.isEmpty
  | h :: t, needle => strStarts needle (h :: t) || charsContain t needle

/-- Python's `needle in hay` substring test. -/
def strContains (hay needle : String) : Bool :=
  charsContain hay.toList needle.toList

/-- `get_mapper_f` (lines 162-193). -/
def get_mapper_f (col : Col) (number : Nat) : Option FRet :=
  if col.primary_key || col.autoincrement then some (.idx number)
  else
    let colName := strLower col.name
    if strContains colName "email" then some (.call col.unique "email")
    else if strContains colName "user_name" || strContains colName "username" then
      some (.call col.unique "user_name")
    else if strContains colName "full_name" then some (.call col.unique "name")
    else if strContains colName "phone" then some (.call col.unique "phone_number")
    else
      match fakerMapper col.ctype with
      | some key => some (.call col.unique key)
      | none => none

/-- The mutable state the generator reads and writes: the module-global
`created_models` registry (line 110), the faker PRNG position, the
position of the `random` module stream, and faker's per-method registry
of already emitted unique values. -/
structure GenState where
  pool : List (Model × List Record)
  pos : Nat
  rpos : Nat
  emitted : List (String × List Nat)
deriving DecidableEq, Repr

/-- `created_models[m]` (a `defaultdict(list)`). -/
def poolGet : List (Model × List Record) → Model → List Record
  | [], _ => []
  | (m', rs) :: rest, m => if m' = m then rs else poolGet rest m

/-- `created_models[m].append(r)`. -/
def poolAdd : List (Model × List Record) → Model → Record → List (Model × List Record)
  | [], m, r => [(m, [r])]
  | (m', rs) :: rest, m, r =>
    if m' = m then (m', rs ++ [r]) :: rest else (m', rs) :: poolAdd rest m r

/-- The already emitted values of faker's unique registry for one
method key. -/
def emGet (em : List (String × List Nat)) (key : String) : List Nat :=
  (alGet em key).getD []

/-- Replace the emitted list of one method key. -/
def emSet : List (String × List Nat) → String → List Nat → List (String × List Nat)
  | [], k, v => [(k, v)]
  | (k', v') :: rest, k, v =>
    if k' = k then (k, v) :: rest else (k', v') :: emSet rest k v

/-- Faker's unique proxy: draw values from the stream, skipping values
already emitted for this method, for at most `budget` attempts; give up
(`UniquenessException`) when the budget runs out. Returns the value (if
any) and the new PRNG position. -/
def uniqueDraw (gen : String → Nat → Nat) (key : String) : Nat → Nat → List Nat → Option Nat × Nat
  | 0, pos, _ => (none, pos)
  | b + 1, pos, seen =>
    let v := gen key pos
    if v ∈ seen then uniqueDraw gen key b (pos + 1) seen
    else (some v, pos + 1)

/-- Errors that abort a generation run: the uncaught `ValueError` that
`random.randint(0, -1)` raises when the referenced entity has no
generated records (line 145); named after the condition it signals. -/
inductive GErr where
  | missingDependency (tableName : String)
deriving DecidableEq, Repr

/-- Result of generating a value for one column of one record (the loop
body, lines 143-156): a value, no value (`get_mapper_f` returned
`None`), a `UniquenessException`, or a fatal error. -/
inductive CSRes where
  | val (v : Nat) (st : GenState)
  | skip (st : GenState)
  | uniqF (st : GenState)
  | fail (e : GErr) (st : GenState)
deriving DecidableEq, Repr

/-- The per-column step of `generate_model`'s inner loop
(lines 143-156): foreign-key columns draw a random already-created
record of the referenced model and store its `.id`; other columns call
the faker function chosen by `get_mapper_f`. -/
def colStep (gen : String → Nat → Nat) (rnd : Nat → Nat) (retries : Nat)
    (deps : List (String × Model)) (i : Nat) (c : Col) (st : GenState) : CSRes :=
  match alGet deps c.name with
  | some dm =>
    let recs := poolGet st.pool dm
    if h : recs.length = 0 then .fail (.missingDependency dm.tableName) st
    else
      .val (recordId (recs.get ⟨rnd st.rpos % recs.length,
              Nat.mod_lt _ (Nat.pos_of_ne_zero h)⟩))
        { st with rpos := st.rpos + 1 }
  | none =>
    match get_mapper_f c i with
    | none => .skip st
    | some (.idx n) => .val n st
    | some (.call u key) =>
      if u then
        match uniqueDraw gen key retries st.pos (emGet st.emitted key) with
        | (none, pos') => .uniqF { st with pos := pos' }
        | (some v, pos') =>
          .val v { st with pos := pos',
                           emitted := emSet st.emitted key (emGet st.emitted key ++ [v]) }
      else .val (gen key st.pos) { st with pos := st.pos + 1 }

/-- The generator state a per-column outcome leaves behind. -/
def csState : CSRes → GenState
  | .val _ st => st
  | .skip st => st
  | .uniqF st => st
  | .fail _ st => st

/-- Result of building one record's `data` dict: built, stopped by a
`UniquenessException` at some column, or fatally failed. The state at
the moment of the outcome is returned (mutations before a Python
exception survive it). -/
inductive BDRes where
  | ok (data : Record) (st : GenState)
  | uniq (c : Col) (st : GenState)
  | fail (e : GErr) (st : GenState)
deriving DecidableEq, Repr

/-- The generator state a record-build outcome leaves behind. -/
def bdState : BDRes → GenState
  | .ok _ st => st
  | .uniq _ st => st
  | .fail _ st => st

/-- Build the `data` dict of one record, iterating over the table's
columns (line 142). -/
def buildData (gen : String → Nat → Nat) (rnd : Nat → Nat) (retries : Nat)
    (deps : List (String × Model)) (i : Nat) : List Col → Record → GenState → BDRes
  | [], data, st => .ok data st
  | c :: cs, data, st =>
    match colStep gen rnd retries deps i c st with
    | .fail e st' => .fail e st'
    | .uniqF st' => .uniq c st'
    | .val v st' => buildData gen rnd retries deps i cs (data ++ [(c.name, v)]) st'
    | .skip st' => buildData gen rnd retries deps i cs data st'

/-- Result of `generate_model`: normal return (with the warning printed
if a `UniquenessException` stopped the batch early), or a fatal
uncaught exception. -/
inductive GMRes where
  | done (st : GenState) (warn : Option String)
  | fail (e : GErr) (st : GenState)
deriving DecidableEq, Repr

/-- The generator state an outcome leaves behind. -/
def gmState : GMRes → GenState
  | .done st _ => st
  | .fail _ st => st

/-- The warning of a normal `generate_model` return, when one was
printed. -/
def gmWarn : GMRes → Option String
  | .done _ w => w
  | .fail _ _ => none

/-- The values a list of records holds for one column name. -/
def valuesAt (recs : List Record) (k : String) : List Nat :=
  recs.filterMap (fun r => alGet r k)

/-- The warning printed at line 155. -/
def warnMsg (m : Model) (c : Col) : String :=
  "⚠️ Warning: Could not generate a unique value for " ++ m.clsName ++ "." ++ c.name ++
    ". Stopping generation for this model. Try requesting a smaller amount."

/-- The `for i in range(amount)` loop of `generate_model`
(lines 140-159): `remaining` counts iterations left, `i` is the loop
index. -/
def genLoop (gen : String → Nat → Nat) (rnd : Nat → Nat) (retries : Nat)
    (model : Model) (deps : List (String × Model)) :
    Nat → Nat → GenState → GMRes
  | 0, _, st => .done st none
  | r + 1, i, st =>
    match buildData gen rnd retries deps i model.cols [] st with
    | .fail e st' => .fail e st'
    | .uniq c st' => .done st' (some (warnMsg model c))
    | .ok data st' => genLoop gen rnd retries model deps r (i + 1) { st' with pool := poolAdd st'.pool model data }

/-- `generate_model` (lines 130-159): clear faker's unique registry
(`fake.unique.clear()`, line 138) and run the batch loop. -/
def generate_model (gen : String → Nat → Nat) (rnd : Nat → Nat) (retries : Nat)
    (entry : Entry) (amount : Nat) (st : GenState) : GMRes :=
  genLoop gen rnd retries entry.1 entry.2 amount 0 { st with emitted := [] }

/-- Result of the batch loop over all sorted models (lines 198-199):
final state, warnings printed, and the fatal error if one aborted the
run. -/
structure RARes where
  st : GenState
  warns : List String
  err : Option GErr
deriving DecidableEq, Repr

/-- The `for model in sorted_models: generate_model(model, 100)` loop
(lines 198-199), for an arbitrary per-entity amount; a fatal exception
aborts the loop, leaving the state reached so far. -/
def runAll (gen : String → Nat → Nat) (rnd : Nat → Nat) (retries : Nat)
    (amount : Nat) : List Entry → GenState → RARes
  | [], st => ⟨st, [], none⟩
  | e :: rest, st =>
    match generate_model gen rnd retries e amount st with
    | .fail er st' => ⟨st', [], some er⟩
    | .done st' w =>
      let r := runAll gen rnd retries amount rest st'
      ⟨r.st, (match w with | some s => s :: r.warns | none => r.warns), r.err⟩

/-- A fatal error of a whole run: an exception out of `create_DAG` or
out of the generation loop. -/
inductive RunErr where
  | dag (e : DErr)
  | gen (e : GErr)
deriving DecidableEq, Repr

/-- Result of one whole generation run. -/
structure ScriptRes where
  st : GenState
  warns : List String
  err : Option RunErr
deriving DecidableEq, Repr

/-- One generation run, as the module script performs it (lines
196-200): build the DAG, then populate every model in that order. When
`create_DAG` raises, nothing has been generated and the state is
untouched. -/
def runScript (gen : String → Nat → Nat) (rnd : Nat → Nat) (retries : Nat)
    (ms : List Model) (amount : Nat) (st : GenState) : ScriptRes :=
  match create_DAG ms with
  | .error e => ⟨st, [], some (.dag e)⟩
  | .ok sorted =>
    let r := runAll gen rnd retries amount sorted st
    ⟨r.st, r.warns, r.err.map .gen⟩

/-- The empty generator state of a fresh process. -/
def st0 : GenState := ⟨[], 0, 0, []⟩

/-! ## The models of `models.py`, as `create_DAG` sees them -/

/-- A helper to write columns tersely. -/
def mkCol (name : String) (pk auto uniq : Bool) (t : CType) (fk : Option String) : Col :=
  ⟨name, pk, auto, uniq, t, fk⟩

/-- `models.User` (models.py lines 6-19). -/
def userModel : Model :=
  { clsName := "User", tableName := "users",
    cols := [
      mkCol "id" true true false .integer none,
      mkCol "email" false false true .string none,
      mkCol "full_name" false false false .string none,
      mkCol "password" false false false .string none,
      mkCol "is_active" false false false .boolean none,
      mkCol "created_at" false false false .datetime none,
      mkCol "updated_at" false false false .datetime none] }

/-- `models.Product` (models.py lines 24-37). -/
def productModel : Model :=
  { clsName := "Product", tableName := "products",
    cols := [
      mkCol "id" true true false .integer none,
      mkCol "name" false false false .string none,
      mkCol "description" false false false .text none,
      mkCol "price" false false false .float none,
      mkCol "category" false false false .string none,
      mkCol "stock" false false false .integer none,
      mkCol "created_at" false false false .datetime none,
      mkCol "updated_at" false false false .datetime none] }

/-- `models.Order` (models.py lines 42-55). -/
def orderModel : Model :=
  { clsName := "Order", tableName := "orders",
    cols := [
      mkCol "id" true true false .integer none,
      mkCol "user_id" false false false .integer (some "users"),
      mkCol "product_id" false false false .integer (some "products"),
      mkCol "quantity" false false false .integer none,
      mkCol "total_price" false false false .float none,
      mkCol "status" false false false .string none,
      mkCol "order_date" false false false .datetime none,
      mkCol "updated_at" false false false .datetime none] }

/-- `models.Review` (models.py lines 60-72). -/
def reviewModel : Model :=
  { clsName := "Review", tableName := "reviews",
    cols := [
      mkCol "id" true true false .integer none,
      mkCol "user_id" false false false .integer (some "users"),
      mkCol "product_id" false false false .integer (some "products"),
      mkCol "rating" false false false .integer none,
      mkCol "comment" false false false .text none,
      mkCol "review_date" false false false .datetime none,
      mkCol "updated_at" false false false .datetime none] }

/-- `all_models = [Review, Product, User, Order]` (line 196). -/
def allModels : List Model := [reviewModel, productModel, userModel, orderModel]

/-! ## Concrete inputs used to instantiate the theorems -/

/-- A model whose only foreign key targets table `b`: one half of a
two-model reference cycle. -/
def cycA : Model :=
  { clsName := "A", tableName := "a",
    cols := [mkCol "id" true true false .integer none,
             mkCol "b_id" false false false .integer (some "b")] }

/-- A model whose only foreign key targets table `a`: the other half of
the cycle. -/
def cycB : Model :=
  { clsName := "B", tableName := "b",
    cols := [mkCol "id" true true false .integer none,
             mkCol "a_id" false false false .integer (some "a")] }

/-- A dependency-free model with a primary key and one unique column. -/
def exhModel : Model :=
  { clsName := "Thing", tableName := "things",
    cols := [mkCol "id" true true false .integer none,
             mkCol "code" false false true .string none] }

/-- A faker stream whose values are the PRNG positions: every draw is
fresh. -/
def genSeq : String → Nat → Nat := fun _ p => p

/-- A faker stream that always yields the same value: the unique pool
for any method holds a single distinguishable value. -/
def genConst : String → Nat → Nat := fun _ _ => 0

/-- A `random` stream that always yields 0. -/
def rnd0 : Nat → Nat := fun _ => 0

/-! ## `create_order` (main.py lines 294-336) -/

/-- A persisted product row: the fields `create_order` touches. Prices
are rationals (exact arithmetic stands in for the float column). -/
structure ProductRow where
  id : Nat
  price : Rat
  stock : Int
deriving DecidableEq, Repr

/-- A persisted order row: the fields `create_order` writes. -/
structure OrderRow where
  id : Nat
  user_id : Nat
  product_id : Nat
  quantity : Int
  total_price : Rat
  status : String
deriving DecidableEq, Repr

/-- The database state the endpoint reads and writes. -/
structure Db where
  users : List Nat
  products : List ProductRow
  orders : List OrderRow
deriving DecidableEq, Repr

/-- The request body (`schemas.OrderCreate`); pydantic enforces
`quantity > 0` (`conint(gt=0)`, schemas.py line 54). -/
structure OrderIn where
  user_id : Nat
  product_id : Nat
  quantity : Int
  status : String
deriving DecidableEq, Repr

/-- An `HTTPException(status_code, ...)`, by status code. -/
inductive HttpErr where
  | err (code : Nat)
deriving DecidableEq, Repr

/-- Decrement the stock of the first product row with the given id
(the session holds one object per row; `db_product.stock -= quantity`
mutates it). -/
def decStockFirst : List ProductRow → Nat → Int → List ProductRow
  | [], _, _ => []
  | p :: rest, pid, q =>
    if p.id = pid then { p with stock := p.stock - q } :: rest
    else p :: decStockFirst rest pid q

/-- `create_order` (main.py lines 294-336). On an `HTTPException` the
transaction is never committed, so the state is returned unchanged.
On success the new order row (with its assigned identity, abstracted as
the next list position) is appended and the product's stock reduced, in
one commit. -/
def create_order (db : Db) (oin : OrderIn) : Db × Except HttpErr OrderRow :=
  if oin.user_id ∉ db.users then (db, .error (.err 404))
  else
    match db.products.find? (fun p => p.id = oin.product_id) with
    | none => (db, .error (.err 404))
    | some p =>
      if p.stock < oin.quantity then (db, .error (.err 400))
      else
        let total_price := p.price * (oin.quantity : Rat)
        let o : OrderRow := { id := db.orders.length, user_id := oin.user_id,
                              product_id := oin.product_id, quantity := oin.quantity,
                              total_price := total_price, status := oin.status }
        ({ users := db.users,
           products := decStockFirst db.products oin.product_id oin.quantity,
           orders := db.orders ++ [o] }, .ok o)

/-! ## `get_shipping_estimate` (main.py lines 518-562) -/

/-- The request body (`ShippingEstimateRequest`), weights and distances
as exact rationals. -/
structure ShipReq where
  product_id : Nat
  destination_zip_code : String
  weight_kg : Rat
  distance_km : Rat
deriving DecidableEq, Repr

/-- The response body (`ShippingEstimateResponse`). -/
structure ShipResp where
  product_id : Nat
  destination_zip_code : String
  estimated_cost : Rat
  estimated_delivery_days : Int
  carrier : String
deriving DecidableEq, Repr

/-- What the downstream mock-service call can come back with: a parsed
response, a connection failure (`httpx.RequestError`), or an HTTP error
status (`httpx.HTTPStatusError` out of `raise_for_status`). -/
inductive Downstream where
  | ok (r : ShipResp)
  | requestError
  | httpStatusError (code : Nat)
deriving DecidableEq, Repr

/-- Python's `int(x)`: truncation toward zero. -/
def pyInt (q : Rat) : Int := if 0 ≤ q then ⌊q⌋ else ⌈q⌉

/-- Python's `round(x, 2)`: round half to even at two decimals. -/
def pyRound2 (q : Rat) : Rat :=
  let x := q * 100
  let f := ⌊x⌋
  let r := x - (f : Rat)
  let n : Int :=
    if r < 1/2 then f
    else if 1/2 < r then f + 1
    else if f % 2 = 0 then f else f + 1
  (n : Rat) / 100

/-- `get_shipping_estimate` (main.py lines 518-562), as a function of
the request and of what the downstream call does. Every branch returns
a `ShipResp`: both handled exceptions answer with fallbacks instead of
re-raising. -/
def get_shipping_estimate (req : ShipReq) (d : Downstream) : ShipResp :=
  match d with
  | .ok r => r
  | .requestError =>
    let base_cost : Rat := 5
    let cost_per_kg : Rat := 2
    let cost_per_100km : Rat := 1
    let estimated_cost := base_cost + req.weight_kg * cost_per_kg +
      req.distance_km * cost_per_100km / 100
    let estimated_days := max 1 (pyInt (req.distance_km / 500) + pyInt (req.weight_kg / 10))
    { product_id := req.product_id,
      destination_zip_code := req.destination_zip_code,
      estimated_cost := pyRound2 estimated_cost,
      estimated_delivery_days := estimated_days,
      carrier := "MockCarrier Express (Fallback)" }
  | .httpStatusError _ =>
    { product_id := req.product_id,
      destination_zip_code := req.destination_zip_code,
      estimated_cost := 99.99,
      estimated_delivery_days := 99,
      carrier := "ErrorCarrier (Fallback)" }

/-- The invariant `dfs_visit` maintains: `visited` lists exactly the
models already appended to `sorted_order` (they are updated in
lockstep, lines 96 and 101), every appended entry carries the resolved
form of its model's foreign keys, and the output built so far is in
topological order. -/
def DInv (ms : List Model) (st : DState) : Prop :=
  st.visited = orderModels st.sortedOrder ∧
  (∀ e ∈ st.sortedOrder, resolveAll ms (modelFks e.1) = .ok e.2) ∧
  depsInAux [] st.sortedOrder

/-- A cycle witness produced by a failing DFS: the name the raised
exception carries is the class name of a model lying on a dependency
cycle. -/
def CycleWitness (ms : List Model) (n : String) : Prop :=
  ∃ m0 s, n = m0.clsName ∧ m0 ∈ ms ∧ (m0 :: s).Nodup ∧ (∀ x ∈ s, x ∈ ms) ∧
    chainToB ms (m0 :: s) m0 = true

/-! ## Basic lemmas on name resolution and the dependency graph -/

theorem lookupName_mem {ms : List Model} {n : String} {d : Model}
    (h : lookupName ms n = .ok d) : d ∈ ms ∧ d.tableName = n := by
  unfold lookupName at h
  cases hf : ms.reverse.find? (fun d => d.tableName == n) with
  | none => rw [hf] at h; exact nomatch h
  | some d' =>
    rw [hf] at h
    cases h
    refine ⟨List.mem_reverse.mp (List.mem_of_find?_eq_some hf), ?_⟩
    have := List.find?_some hf
    exact beq_iff_eq.mp this

theorem succs_iff {ms : List Model} {m d : Model} :
    d ∈ succs ms m ↔ ∃ p ∈ modelFks m, lookupName ms p.2 = .ok d := by
  unfold succs
  rw [List.mem_filterMap]
  constructor
  · rintro ⟨p, hp, heq⟩
    refine ⟨p, hp, ?_⟩
    cases hl : lookupName ms p.2 with
    | ok d' => rw [hl] at heq; cases heq; rfl
    | error e => rw [hl] at heq; exact nomatch heq
  · rintro ⟨p, hp, hl⟩
    exact ⟨p, hp, by rw [hl]⟩

theorem edgeB_iff {ms : List Model} {x t : Model} :
    edgeB ms x t = true ↔ t ∈ succs ms x := by
  unfold edgeB
  rw [List.any_eq_true]
  constructor
  · rintro ⟨y, hy, hd⟩
    have : y = t := of_decide_eq_true hd
    exact this ▸ hy
  · intro ht
    exact ⟨t, ht, by simp⟩

theorem resolveAll_ok_of_wf {ms : List Model} {fks : List (String × String)}
    (h : ∀ p ∈ fks, ∃ d, lookupName ms p.2 = .ok d) :
    ∃ ds, resolveAll ms fks = .ok ds := by
  induction fks with
  | nil => exact ⟨[], rfl⟩
  | cons p rest ih =>
    obtain ⟨d, hd⟩ := h p (List.mem_cons_self _ _)
    obtain ⟨ds, hds⟩ := ih (fun q hq => h q (List.mem_cons_of_mem _ hq))
    refine ⟨(p.1, d) :: ds, ?_⟩
    unfold resolveAll
    rw [show p = (p.1, p.2) from rfl] at hd ⊢
    simp only [hd, hds]

theorem resolveAll_mem_fwd {ms : List Model} {fks : List (String × String)}
    {ds : List (String × Model)} (h : resolveAll ms fks = .ok ds) :
    ∀ q ∈ ds, ∃ n, (q.1, n) ∈ fks ∧ lookupName ms n = .ok q.2 := by
  induction fks generalizing ds with
  | nil =>
    unfold resolveAll at h
    cases h
    intro q hq
    exact absurd hq (List.not_mem_nil q)
  | cons p rest ih =>
    unfold resolveAll at h
    cases hl : lookupName ms p.2 with
    | error e => rw [show p = (p.1, p.2) from rfl, hl] at h; exact nomatch h
    | ok d =>
      rw [show p = (p.1, p.2) from rfl, hl] at h
      cases hr : resolveAll ms rest with
      | error e => rw [hr] at h; exact nomatch h
      | ok ds' =>
        rw [hr] at h
        cases h
        intro q hq
        rcases List.mem_cons.mp hq with hq | hq
        · subst hq
          exact ⟨p.2, List.mem_cons_self _ _, hl⟩
        · obtain ⟨n, hn, hln⟩ := ih hr q hq
          exact ⟨n, List.mem_cons_of_mem _ hn, hln⟩

theorem resolveAll_mem_bwd {ms : List Model} {fks : List (String × String)}
    {ds : List (String × Model)} (h : resolveAll ms fks = .ok ds) :
    ∀ a n d, (a, n) ∈ fks → lookupName ms n = .ok d → (a, d) ∈ ds := by
  induction fks generalizing ds with
  | nil =>
    intro a n d hn _
    exact absurd hn (List.not_mem_nil _)
  | cons p rest ih =>
    unfold resolveAll at h
    cases hl : lookupName ms p.2 with
    | error e => rw [show p = (p.1, p.2) from rfl, hl] at h; exact nomatch h
    | ok d0 =>
      rw [show p = (p.1, p.2) from rfl, hl] at h
      cases hr : resolveAll ms rest with
      | error e => rw [hr] at h; exact nomatch h
      | ok ds' =>
        rw [hr] at h
        cases h
        intro a n d hn hld
        rcases List.mem_cons.mp hn with hq | hq
        · have h1 : p.1 = a ∧ p.2 = n := by
            rw [← hq]
            exact ⟨rfl, rfl⟩
          rcases h1 with ⟨ha, hb⟩
          rw [hb] at hl
          rw [hld] at hl
          cases hl
          exact ha ▸ List.mem_cons_self _ _
        · exact List.mem_cons_of_mem _ (ih hr a n d hq hld)

/-- Appending an entry whose dependencies are already listed preserves
the topological property. -/
theorem depsInAux_append {seen : List Model} {order : List Entry} (e : Entry)
    (h : depsInAux seen order)
    (he : ∀ p ∈ e.2, p.2 ∈ seen ++ orderModels order) :
    depsInAux seen (order ++ [e]) := by
  induction order generalizing seen with
  | nil =>
    simp only [List.nil_append]
    exact ⟨by simpa [orderModels] using he, trivial⟩
  | cons e0 rest ih =>
    obtain ⟨h1, h2⟩ := h
    refine ⟨h1, ih h2 ?_⟩
    intro p hp
    have := he p hp
    simp only [orderModels, List.map_cons, List.append_assoc] at this ⊢
    simpa [List.mem_append, List.mem_cons, or_assoc] using this

/-! ## Success facts of the depth-first search -/

theorem dfs_ok_facts (ms : List Model) : ∀ fuel : Nat,
    (∀ st m st', dfsVisit ms fuel st m = .ok st' →
      st'.visiting = st.visiting ∧ st.visited ⊆ st'.visited ∧ m ∈ st'.visited ∧
      (DInv ms st → DInv ms st')) ∧
    (∀ st ds st', dfsList (dfsVisit ms fuel) ms st ds = .ok st' →
      st'.visiting = st.visiting ∧ st.visited ⊆ st'.visited ∧
      (∀ p ∈ ds, ∀ d, lookupName ms p.2 = .ok d → d ∈ st'.visited) ∧
      (DInv ms st → DInv ms st')) := by
  intro fuel
  induction fuel with
  | zero =>
    constructor
    · intro st m st' h
      unfold dfsVisit at h
      exact nomatch h
    · intro st ds st' h
      induction ds generalizing st with
      | nil =>
        unfold dfsList at h
        cases h
        exact ⟨rfl, fun x hx => hx, fun p hp => absurd hp (List.not_mem_nil p), id⟩
      | cons p rest ihl =>
        obtain ⟨a, n⟩ := p
        unfold dfsList at h
        cases hl : lookupName ms n with
        | error e => rw [hl] at h; exact nomatch h
        | ok dm =>
          simp only [hl] at h
          have hv : dfsVisit ms 0 st dm = .error .fuel := by unfold dfsVisit; rfl
          rw [hv] at h
          exact nomatch h
  | succ f ih =>
    have V : ∀ st m st', dfsVisit ms (f + 1) st m = .ok st' →
        st'.visiting = st.visiting ∧ st.visited ⊆ st'.visited ∧ m ∈ st'.visited ∧
        (DInv ms st → DInv ms st') := by
      intro st m st' h
      unfold dfsVisit at h
      by_cases h1 : m ∈ st.visited
      · rw [if_pos h1] at h
        cases h
        exact ⟨rfl, fun x hx => hx, h1, id⟩
      · rw [if_neg h1] at h
        by_cases h2 : m ∈ st.visiting
        · rw [if_pos h2] at h
          exact nomatch h
        · rw [if_neg h2] at h
          cases hdl : dfsList (dfsVisit ms f) ms { st with visiting := st.visiting ++ [m] } (modelFks m) with
          | error e => rw [hdl] at h; exact nomatch h
          | ok st2 =>
            rw [hdl] at h
            cases hra : resolveAll ms (modelFks m) with
            | error e => rw [hra] at h; exact nomatch h
            | ok deps =>
              rw [hra] at h
              cases h
              obtain ⟨hv1, hsub, hp3, hinv⟩ := ih.2 _ _ _ hdl
              refine ⟨?_, ?_, ?_, ?_⟩
              · show st2.visiting.erase m = st.visiting
                rw [hv1]
                show (st.visiting ++ [m]).erase m = st.visiting
                rw [List.erase_append_right _ h2, List.erase_cons_head]
                simp
              · intro x hx
                exact List.mem_append_left _ (hsub hx)
              · exact List.mem_append_right _ (List.mem_singleton.mpr rfl)
              · intro hInv
                obtain ⟨hVO, hR, hD⟩ := hinv hInv
                refine ⟨?_, ?_, ?_⟩
                · show st2.visited ++ [m] = orderModels (st2.sortedOrder ++ [(m, deps)])
                  simp [orderModels, hVO]
                · intro e he
                  rcases List.mem_append.mp he with he | he
                  · exact hR e he
                  · rcases List.mem_singleton.mp he with rfl
                    exact hra
                · refine depsInAux_append _ hD ?_
                  intro p hp
                  obtain ⟨n, hn, hln⟩ := resolveAll_mem_fwd hra p hp
                  have : p.2 ∈ st2.visited := hp3 (p.1, n) hn p.2 hln
                  rw [hVO] at this
                  simpa using this
    refine ⟨V, ?_⟩
    intro st ds st' h
    induction ds generalizing st with
    | nil =>
      unfold dfsList at h
      cases h
      exact ⟨rfl, fun x hx => hx, fun p hp => absurd hp (List.not_mem_nil p), id⟩
    | cons p rest ihl =>
      obtain ⟨a, n⟩ := p
      unfold dfsList at h
      cases hl : lookupName ms n with
      | error e => rw [hl] at h; exact nomatch h
      | ok dm =>
        simp only [hl] at h
        cases hv : dfsVisit ms (f + 1) st dm with
        | error e => rw [hv] at h; exact nomatch h
        | ok st1 =>
          rw [hv] at h
          obtain ⟨hva, hsa, hma, hia⟩ := V _ _ _ hv
          obtain ⟨hvb, hsb, hp3b, hib⟩ := ihl _ h
          refine ⟨hvb.trans hva, fun x hx => hsb (hsa hx), ?_, fun hi => hib (hia hi)⟩
          intro q hq d hld
          rcases List.mem_cons.mp hq with hq | hq
          · have hd : d = dm := by
              have : lookupName ms n = .ok d := by
                rw [← hld]
                rw [hq]
              rw [this] at hl
              cases hl
              rfl
            exact hd ▸ hsb hma
          · exact hp3b q hq d hld

/-! ## Chain lemmas -/

theorem chainToB_nil {ms : List Model} {t : Model} : chainToB ms [] t = true := rfl

theorem chainToB_single {ms : List Model} {v t : Model} :
    chainToB ms [v] t = edgeB ms v t := rfl

theorem chainToB_cons2 {ms : List Model} {v w : Model} {vs : List Model} {t : Model} :
    chainToB ms (v :: w :: vs) t = (edgeB ms v w && chainToB ms (w :: vs) t) := rfl

theorem chainToB_cons_tail {ms : List Model} {x : Model} {l : List Model} {t : Model}
    (h : chainToB ms (x :: l) t = true) (hl : l ≠ []) : chainToB ms l t = true := by
  cases l with
  | nil => exact absurd rfl hl
  | cons w vs =>
    rw [chainToB_cons2, Bool.and_eq_true] at h
    exact h.2

theorem chainToB_suffix {ms : List Model} {l1 l2 : List Model} {t : Model}
    (h : chainToB ms (l1 ++ l2) t = true) (hl : l2 ≠ []) : chainToB ms l2 t = true := by
  induction l1 with
  | nil => exact h
  | cons x rest ih =>
    have hne : rest ++ l2 ≠ [] := by
      intro hc
      exact hl (List.append_eq_nil.mp hc).2
    exact ih (chainToB_cons_tail h hne)

theorem chainToB_append_edge {ms : List Model} {v : List Model} {m d : Model}
    (h : chainToB ms v m = true) (he : edgeB ms m d = true) :
    chainToB ms (v ++ [m]) d = true := by
  induction v with
  | nil => simpa [chainToB_single] using he
  | cons x rest ih =>
    cases rest with
    | nil =>
      rw [chainToB_single] at h
      show chainToB ms (x :: m :: []) d = true
      rw [chainToB_cons2, Bool.and_eq_true]
      exact ⟨h, by simpa [chainToB_single] using he⟩
    | cons w vs =>
      rw [chainToB_cons2, Bool.and_eq_true] at h
      show chainToB ms (x :: (w :: vs ++ [m])) d = true
      have : chainToB ms (w :: vs ++ [m]) d = true := ih h.2
      cases vs with
      | nil =>
        rw [show (w :: [] ++ [m] : List Model) = w :: m :: [] from rfl] at this ⊢
        rw [chainToB_cons2, Bool.and_eq_true]
        exact ⟨h.1, this⟩
      | cons u us =>
        rw [show (w :: u :: us ++ [m] : List Model) = w :: (u :: us ++ [m]) from rfl] at this ⊢
        rw [chainToB_cons2, Bool.and_eq_true]
        exact ⟨h.1, this⟩

theorem chain_mem_succ {ms : List Model} :
    ∀ {l : List Model} {t x : Model}, chainToB ms l t = true → x ∈ l →
      ∃ y, (y ∈ l ∨ y = t) ∧ edgeB ms x y = true := by
  intro l
  induction l with
  | nil =>
    intro t x _ hx
    exact absurd hx (List.not_mem_nil x)
  | cons v rest ih =>
    intro t x h hx
    cases rest with
    | nil =>
      rcases List.mem_singleton.mp hx with rfl
      rw [chainToB_single] at h
      exact ⟨t, Or.inr rfl, h⟩
    | cons w vs =>
      rw [chainToB_cons2, Bool.and_eq_true] at h
      rcases List.mem_cons.mp hx with rfl | hx
      · exact ⟨w, Or.inl (List.mem_cons_of_mem _ (List.mem_cons_self _ _)), h.1⟩
      · obtain ⟨y, hy, hxy⟩ := ih h.2 hx
        refine ⟨y, ?_, hxy⟩
        rcases hy with hy | hy
        · exact Or.inl (List.mem_cons_of_mem _ hy)
        · exact Or.inr hy

/-! ## Error classification of the depth-first search -/

theorem dfs_err_classify (ms : List Model) (hwf : wfNames ms) : ∀ fuel : Nat,
    (∀ st m e, st.visiting ⊆ ms → st.visiting.Nodup → m ∈ ms →
      ms.length + 1 ≤ fuel + st.visiting.length →
      dfsVisit ms fuel st m = .error e → ∃ n, e = .circular n) ∧
    (∀ st ds e, st.visiting ⊆ ms → st.visiting.Nodup →
      (∀ p ∈ ds, ∃ d, lookupName ms p.2 = .ok d) →
      ms.length + 1 ≤ fuel + st.visiting.length →
      dfsList (dfsVisit ms fuel) ms st ds = .error e → ∃ n, e = .circular n) := by
  intro fuel
  induction fuel with
  | zero =>
    have hcontra : ∀ st : DState, st.visiting ⊆ ms → st.visiting.Nodup →
        ¬ (ms.length + 1 ≤ 0 + st.visiting.length) := by
      intro st hsub hnd hle
      have := (hnd.subperm hsub).length_le
      omega
    constructor
    · intro st m e hsub hnd _ hle _
      exact absurd hle (hcontra st hsub hnd)
    · intro st ds e hsub hnd _ hle _
      exact absurd hle (hcontra st hsub hnd)
  | succ f ih =>
    have V : ∀ st m e, st.visiting ⊆ ms → st.visiting.Nodup → m ∈ ms →
        ms.length + 1 ≤ (f + 1) + st.visiting.length →
        dfsVisit ms (f + 1) st m = .error e → ∃ n, e = .circular n := by
      intro st m e hsub hnd hm hle h
      unfold dfsVisit at h
      by_cases h1 : m ∈ st.visited
      · rw [if_pos h1] at h
        exact nomatch h
      · rw [if_neg h1] at h
        by_cases h2 : m ∈ st.visiting
        · rw [if_pos h2] at h
          cases h
          exact ⟨m.clsName, rfl⟩
        · rw [if_neg h2] at h
          cases hdl : dfsList (dfsVisit ms f) ms { st with visiting := st.visiting ++ [m] } (modelFks m) with
          | error e' =>
            rw [hdl] at h
            cases h
            refine ih.2 _ _ _ ?_ ?_ ?_ ?_ hdl
            · intro x hx
              rcases List.mem_append.mp hx with hx | hx
              · exact hsub hx
              · rcases List.mem_singleton.mp hx with rfl
                exact hm
            · simp only [List.nodup_append, List.nodup_cons]
              exact ⟨hnd, by simp, by simpa [List.disjoint_singleton] using h2⟩
            · exact fun p hp => hwf m hm p hp
            · simp only [List.length_append, List.length_singleton]
              omega
          | ok st2 =>
            rw [hdl] at h
            cases hra : resolveAll ms (modelFks m) with
            | error e' =>
              obtain ⟨ds, hds⟩ := resolveAll_ok_of_wf (hwf m hm)
              rw [hds] at hra
              exact nomatch hra
            | ok deps =>
              rw [hra] at h
              exact nomatch h
    refine ⟨V, ?_⟩
    intro st ds e hsub hnd hres hle h
    induction ds generalizing st with
    | nil =>
      unfold dfsList at h
      exact nomatch h
    | cons p rest ihl =>
      obtain ⟨a, n⟩ := p
      unfold dfsList at h
      obtain ⟨dm, hl⟩ := hres (a, n) (List.mem_cons_self _ _)
      simp only [hl] at h
      cases hv : dfsVisit ms (f + 1) st dm with
      | error e' =>
        rw [hv] at h
        cases h
        exact V _ _ _ hsub hnd (lookupName_mem hl).1 hle hv
      | ok st1 =>
        rw [hv] at h
        have hfacts := ((dfs_ok_facts ms (f + 1)).1 _ _ _ hv).1
        refine ihl _ ?_ ?_ ?_ ?_ h
        · rw [hfacts]; exact hsub
        · rw [hfacts]; exact hnd
        · exact fun q hq => hres q (List.mem_cons_of_mem _ hq)
        · rw [hfacts]; exact hle

theorem lookupName_err {ms : List Model} {n : String} {e : DErr}
    (h : lookupName ms n = .error e) : e = .unknown n := by
  unfold lookupName at h
  cases hf : ms.reverse.find? (fun d => d.tableName == n) with
  | none =>
    rw [hf] at h
    cases h
    rfl
  | some d =>
    rw [hf] at h
    exact nomatch h

theorem resolveAll_err {ms : List Model} {fks : List (String × String)} {e : DErr}
    (h : resolveAll ms fks = .error e) : ∃ u, e = .unknown u := by
  induction fks with
  | nil =>
    unfold resolveAll at h
    exact nomatch h
  | cons p rest ih =>
    obtain ⟨a, n⟩ := p
    unfold resolveAll at h
    cases hl : lookupName ms n with
    | error e' =>
      rw [hl] at h
      cases h
      exact ⟨n, lookupName_err hl⟩
    | ok d =>
      simp only [hl] at h
      cases hr : resolveAll ms rest with
      | error e' =>
        rw [hr] at h
        cases h
        exact ih hr
      | ok ds =>
        rw [hr] at h
        exact nomatch h

theorem dfs_cyc (ms : List Model) : ∀ fuel : Nat,
    (∀ st m n, st.visiting ⊆ ms → st.visiting.Nodup → m ∈ ms →
      chainToB ms st.visiting m = true →
      dfsVisit ms fuel st m = .error (.circular n) → CycleWitness ms n) ∧
    (∀ st ds n, st.visiting ⊆ ms → st.visiting.Nodup →
      (∀ p ∈ ds, ∀ dm, lookupName ms p.2 = .ok dm →
        dm ∈ ms ∧ chainToB ms st.visiting dm = true) →
      dfsList (dfsVisit ms fuel) ms st ds = .error (.circular n) → CycleWitness ms n) := by
  intro fuel
  induction fuel with
  | zero =>
    constructor
    · intro st m n _ _ _ _ h
      unfold dfsVisit at h
      simp at h
    · intro st ds n _ _ _ h
      induction ds generalizing st with
      | nil =>
        unfold dfsList at h
        exact nomatch h
      | cons p rest ihl =>
        obtain ⟨a, nn⟩ := p
        unfold dfsList at h
        cases hl : lookupName ms nn with
        | error e =>
          rw [hl] at h
          cases h
          have := lookupName_err hl
          exact nomatch this
        | ok dm =>
          simp only [hl] at h
          have hv : dfsVisit ms 0 st dm = .error .fuel := by unfold dfsVisit; rfl
          rw [hv] at h
          simp at h
  | succ f ih =>
    have V : ∀ st m n, st.visiting ⊆ ms → st.visiting.Nodup → m ∈ ms →
        chainToB ms st.visiting m = true →
        dfsVisit ms (f + 1) st m = .error (.circular n) → CycleWitness ms n := by
      intro st m n hsub hnd hm hchain h
      unfold dfsVisit at h
      by_cases h1 : m ∈ st.visited
      · rw [if_pos h1] at h
        exact nomatch h
      · rw [if_neg h1] at h
        by_cases h2 : m ∈ st.visiting
        · rw [if_pos h2] at h
          have hn : n = m.clsName := by
            injection h with h'
            injection h' with h''
            exact h''.symm
          obtain ⟨p, s, hps⟩ := List.append_of_mem h2
          rw [hps] at hchain hnd
          have hcyc : chainToB ms (m :: s) m = true :=
            chainToB_suffix hchain (by simp)
          refine ⟨m, s, hn, hm, hnd.of_append_right, ?_, hcyc⟩
          intro x hx
          apply hsub
          rw [hps]
          exact List.mem_append_right _ (List.mem_cons_of_mem _ hx)
        · rw [if_neg h2] at h
          cases hdl : dfsList (dfsVisit ms f) ms { st with visiting := st.visiting ++ [m] } (modelFks m) with
          | error e' =>
            rw [hdl] at h
            cases h
            refine ih.2 _ _ _ ?_ ?_ ?_ hdl
            · intro x hx
              rcases List.mem_append.mp hx with hx | hx
              · exact hsub hx
              · rcases List.mem_singleton.mp hx with rfl
                exact hm
            · simp only [List.nodup_append, List.nodup_cons]
              exact ⟨hnd, by simp, by simpa [List.disjoint_singleton] using h2⟩
            · intro p hp dm hldm
              refine ⟨(lookupName_mem hldm).1, ?_⟩
              refine chainToB_append_edge hchain ?_
              rw [edgeB_iff, succs_iff]
              exact ⟨p, hp, hldm⟩
          | ok st2 =>
            rw [hdl] at h
            cases hra : resolveAll ms (modelFks m) with
            | error e' =>
              rw [hra] at h
              cases h
              obtain ⟨u, hu⟩ := resolveAll_err hra
              exact nomatch hu
            | ok deps =>
              rw [hra] at h
              exact nomatch h
    refine ⟨V, ?_⟩
    intro st ds n hsub hnd hds h
    induction ds generalizing st with
    | nil =>
      unfold dfsList at h
      exact nomatch h
    | cons p rest ihl =>
      obtain ⟨a, nn⟩ := p
      unfold dfsList at h
      cases hl : lookupName ms nn with
      | error e =>
        rw [hl] at h
        cases h
        have := lookupName_err hl
        exact nomatch this
      | ok dm =>
        simp only [hl] at h
        cases hv : dfsVisit ms (f + 1) st dm with
        | error e' =>
          rw [hv] at h
          cases h
          have hhd := hds (a, nn) (List.mem_cons_self _ _) dm hl
          exact V _ _ _ hsub hnd hhd.1 hhd.2 hv
        | ok st1 =>
          rw [hv] at h
          have hfacts := ((dfs_ok_facts ms (f + 1)).1 _ _ _ hv).1
          refine ihl _ ?_ ?_ ?_ h
          · rw [hfacts]; exact hsub
          · rw [hfacts]; exact hnd
          · intro q hq dm' hldm'
            have := hds q (List.mem_cons_of_mem _ hq) dm' hldm'
            rw [hfacts]
            exact this

/-! ## Lifting to the top-level loop and to create_DAG -/

theorem dfsAll_ok_facts (ms : List Model) (fuel : Nat) :
    ∀ roots st st', dfsAll ms fuel st roots = .ok st' →
      st'.visiting = st.visiting ∧ st.visited ⊆ st'.visited ∧
      (∀ m ∈ roots, m ∈ st'.visited) ∧ (DInv ms st → DInv ms st') := by
  intro roots
  induction roots with
  | nil =>
    intro st st' h
    unfold dfsAll at h
    cases h
    exact ⟨rfl, fun x hx => hx, fun m hm => absurd hm (List.not_mem_nil m), id⟩
  | cons m rest ih =>
    intro st st' h
    unfold dfsAll at h
    by_cases h1 : m ∈ st.visited
    · rw [if_pos h1] at h
      obtain ⟨hva, hsa, hra, hia⟩ := ih st st' h
      exact ⟨hva, hsa, fun x hx => (List.mem_cons.mp hx).elim (fun hx => hx ▸ hsa h1) (hra x), hia⟩
    · rw [if_neg h1] at h
      cases hv : dfsVisit ms fuel st m with
      | error e => rw [hv] at h; exact nomatch h
      | ok st1 =>
        rw [hv] at h
        obtain ⟨hva, hsa, hma, hia⟩ := (dfs_ok_facts ms fuel).1 _ _ _ hv
        obtain ⟨hvb, hsb, hrb, hib⟩ := ih st1 st' h
        refine ⟨hvb.trans hva, fun x hx => hsb (hsa hx), ?_, fun hi => hib (hia hi)⟩
        intro x hx
        rcases List.mem_cons.mp hx with rfl | hx
        · exact hsb hma
        · exact hrb x hx

theorem dfsAll_err_classify (ms : List Model) (hwf : wfNames ms) (fuel : Nat)
    (hfuel : ms.length + 1 ≤ fuel) :
    ∀ roots st e, st.visiting = [] → (∀ m ∈ roots, m ∈ ms) →
      dfsAll ms fuel st roots = .error e → ∃ n, e = .circular n := by
  intro roots
  induction roots with
  | nil =>
    intro st e _ _ h
    unfold dfsAll at h
    exact nomatch h
  | cons m rest ih =>
    intro st e hvis hroots h
    unfold dfsAll at h
    by_cases h1 : m ∈ st.visited
    · rw [if_pos h1] at h
      exact ih st e hvis (fun x hx => hroots x (List.mem_cons_of_mem _ hx)) h
    · rw [if_neg h1] at h
      cases hv : dfsVisit ms fuel st m with
      | error e' =>
        rw [hv] at h
        cases h
        refine (dfs_err_classify ms hwf fuel).1 st m _ ?_ ?_ ?_ ?_ hv
        · rw [hvis]; exact fun x hx => absurd hx (List.not_mem_nil x)
        · rw [hvis]; exact List.nodup_nil
        · exact hroots m (List.mem_cons_self _ _)
        · rw [hvis]; simpa using hfuel
      | ok st1 =>
        rw [hv] at h
        have hfacts := ((dfs_ok_facts ms fuel).1 _ _ _ hv).1
        exact ih st1 e (hfacts.trans hvis)
          (fun x hx => hroots x (List.mem_cons_of_mem _ hx)) h

theorem dfsAll_cyc (ms : List Model) (fuel : Nat) :
    ∀ roots st n, st.visiting = [] → (∀ m ∈ roots, m ∈ ms) →
      dfsAll ms fuel st roots = .error (.circular n) → CycleWitness ms n := by
  intro roots
  induction roots with
  | nil =>
    intro st n _ _ h
    unfold dfsAll at h
    exact nomatch h
  | cons m rest ih =>
    intro st n hvis hroots h
    unfold dfsAll at h
    by_cases h1 : m ∈ st.visited
    · rw [if_pos h1] at h
      exact ih st n hvis (fun x hx => hroots x (List.mem_cons_of_mem _ hx)) h
    · rw [if_neg h1] at h
      cases hv : dfsVisit ms fuel st m with
      | error e' =>
        rw [hv] at h
        cases h
        refine (dfs_cyc ms fuel).1 st m n ?_ ?_ ?_ ?_ hv
        · rw [hvis]; exact fun x hx => absurd hx (List.not_mem_nil x)
        · rw [hvis]; exact List.nodup_nil
        · exact hroots m (List.mem_cons_self _ _)
        · rw [hvis]; exact chainToB_nil
      | ok st1 =>
        rw [hv] at h
        have hfacts := ((dfs_ok_facts ms fuel).1 _ _ _ hv).1
        exact ih st1 n (hfacts.trans hvis)
          (fun x hx => hroots x (List.mem_cons_of_mem _ hx)) h

theorem create_DAG_ok_facts {ms : List Model} {order : List Entry}
    (h : create_DAG ms = .ok order) :
    (∀ m ∈ ms, m ∈ orderModels order) ∧ respectsDeps order ∧
    (∀ e ∈ order, resolveAll ms (modelFks e.1) = .ok e.2) := by
  unfold create_DAG at h
  cases hd : dfsAll ms (ms.length + 1) ⟨[], [], []⟩ ms with
  | error e => rw [hd] at h; exact nomatch h
  | ok st =>
    rw [hd] at h
    cases h
    obtain ⟨_, _, hmem, hinv⟩ := dfsAll_ok_facts ms (ms.length + 1) ms _ _ hd
    obtain ⟨hVO, hR, hD⟩ := hinv ⟨rfl, fun e he => absurd he (List.not_mem_nil e), trivial⟩
    refine ⟨?_, hD, hR⟩
    intro m hm
    have := hmem m hm
    rwa [hVO] at this

theorem create_DAG_err_classify {ms : List Model} {e : DErr} (hwf : wfNames ms)
    (h : create_DAG ms = .error e) : ∃ n, e = .circular n := by
  unfold create_DAG at h
  cases hd : dfsAll ms (ms.length + 1) ⟨[], [], []⟩ ms with
  | error e' =>
    rw [hd] at h
    cases h
    exact dfsAll_err_classify ms hwf (ms.length + 1) (Nat.le_refl _) ms _ _ rfl
      (fun m hm => hm) hd
  | ok st =>
    rw [hd] at h
    exact nomatch h

theorem create_DAG_cyc {ms : List Model} {n : String}
    (h : create_DAG ms = .error (.circular n)) : CycleWitness ms n := by
  unfold create_DAG at h
  cases hd : dfsAll ms (ms.length + 1) ⟨[], [], []⟩ ms with
  | error e' =>
    rw [hd] at h
    cases h
    exact dfsAll_cyc ms (ms.length + 1) ms _ _ rfl (fun m hm => hm) hd
  | ok st =>
    rw [hd] at h
    exact nomatch h

/-! ## No topological order exists once there is a cycle -/

theorem no_order_of_cycle (ms : List Model) :
    ∀ (order : List Entry) (seen : List Model) (cyc : List Model),
      depsInAux seen order →
      (∀ e ∈ order, resolveAll ms (modelFks e.1) = .ok e.2) →
      (∀ x ∈ cyc, ∃ y ∈ cyc, edgeB ms x y = true) →
      (∀ x ∈ cyc, x ∉ seen) →
      ∀ x ∈ cyc, x ∉ orderModels order := by
  intro order
  induction order with
  | nil =>
    intro seen cyc _ _ _ _ x _ hx
    exact absurd hx (List.not_mem_nil x)
  | cons e rest ih =>
    intro seen cyc hD hR hsucc hseen x hx
    obtain ⟨h1, h2⟩ := hD
    have hnotcyc : e.1 ∉ cyc := by
      intro hmem
      obtain ⟨y, hy, hxy⟩ := hsucc e.1 hmem
      have hys : y ∈ succs ms e.1 := edgeB_iff.mp hxy
      obtain ⟨p, hp, hlp⟩ := succs_iff.mp hys
      have : (p.1, y) ∈ e.2 := resolveAll_mem_bwd (hR e (List.mem_cons_self _ _)) p.1 p.2 y
        (by rw [show (p.1, p.2) = p from rfl]; exact hp) hlp
      have := h1 (p.1, y) this
      exact hseen y hy this
    intro hmem
    rcases List.mem_cons.mp hmem with rfl | hmem
    · exact hnotcyc hx
    · refine ih (seen ++ [e.1]) cyc h2 (fun e' he' => hR e' (List.mem_cons_of_mem _ he'))
        hsucc ?_ x hx hmem
      intro z hz hzmem
      rcases List.mem_append.mp hzmem with hzs | hzs
      · exact hseen z hz hzs
      · rcases List.mem_singleton.mp hzs with rfl
        exact hnotcyc hz

theorem hasCycle_not_ok {ms : List Model} {order : List Entry}
    (hcyc : HasCycle ms) (h : create_DAG ms = .ok order) : False := by
  obtain ⟨m, s, hm, hnd, hsub, hch⟩ := hcyc
  obtain ⟨hcomplete, hresp, hR⟩ := create_DAG_ok_facts h
  have hsucc : ∀ x ∈ m :: s, ∃ y ∈ m :: s, edgeB ms x y = true := by
    intro x hx
    obtain ⟨y, hy, hxy⟩ := chain_mem_succ hch hx
    refine ⟨y, ?_, hxy⟩
    rcases hy with hy | hy
    · exact hy
    · exact hy ▸ List.mem_cons_self _ _
  have := no_order_of_cycle ms order [] (m :: s) hresp hR hsucc
    (fun x _ hx => absurd hx (List.not_mem_nil x)) m (List.mem_cons_self _ _)
  exact this (hcomplete m hm)

/-! ## Deciding acyclicity via bounded reachability -/

theorem chain_reach {ms : List Model} :
    ∀ {s : List Model} {x t : Model}, chainToB ms (x :: s) t = true →
      reachB ms (s.length + 1) x t = true := by
  intro s
  induction s with
  | nil =>
    intro x t h
    rw [chainToB_single] at h
    unfold reachB
    rw [List.any_eq_true]
    obtain ⟨y, hy, hyt⟩ := List.any_eq_true.mp h
    exact ⟨y, hy, by simp [of_decide_eq_true hyt]⟩
  | cons w vs ih =>
    intro x t h
    rw [chainToB_cons2, Bool.and_eq_true] at h
    have hr := ih h.2
    show reachB ms (vs.length + 1 + 1) x t = true
    unfold reachB
    rw [List.any_eq_true]
    obtain ⟨y, hy, hxy⟩ := List.any_eq_true.mp h.1
    have hyw : y = w := of_decide_eq_true hxy
    exact ⟨y, hy, by rw [hyw]; simp [hr]⟩

theorem reachB_mono {ms : List Model} :
    ∀ {k k' : Nat} {x t : Model}, k ≤ k' → reachB ms k x t = true →
      reachB ms k' x t = true := by
  intro k
  induction k with
  | zero =>
    intro k' x t _ h
    unfold reachB at h
    exact nomatch h
  | succ kk ih =>
    intro k' x t hle h
    cases k' with
    | zero => omega
    | succ kk' =>
      unfold reachB at h ⊢
      rw [List.any_eq_true] at h ⊢
      obtain ⟨y, hy, hcase⟩ := h
      rw [Bool.or_eq_true] at hcase
      refine ⟨y, hy, ?_⟩
      rw [Bool.or_eq_true]
      rcases hcase with hc | hc
      · exact Or.inl hc
      · exact Or.inr (ih (by omega) hc)

theorem acyclic_of_no_reach (ms : List Model)
    (h : ∀ m ∈ ms, reachB ms ms.length m m = false) : ¬ HasCycle ms := by
  rintro ⟨m, s, hm, hnd, hsub, hch⟩
  have hlen : s.length + 1 ≤ ms.length := by
    have hsubm : (m :: s) ⊆ ms := by
      intro x hx
      rcases List.mem_cons.mp hx with rfl | hx
      · exact hm
      · exact hsub x hx
    have := (hnd.subperm hsubm).length_le
    simpa using this
  have hreach := reachB_mono hlen (chain_reach hch)
  rw [h m hm] at hreach
  exact nomatch hreach

theorem cycleWitness_hasCycle {ms : List Model} {n : String}
    (h : CycleWitness ms n) : HasCycle ms := by
  obtain ⟨m0, s, _, hm, hnd, hsub, hch⟩ := h
  exact ⟨m0, s, hm, hnd, hsub, hch⟩

/-! ## Claim C1 -/

/-- C1: for every set of entity schemas whose foreign keys all resolve
and whose dependency graph is acyclic, `create_DAG` returns a sequence
that contains every input entity (including entities with no dependency
edges) and in which every entity appears strictly after all entities it
references via a foreign key. -/
theorem C1_buildOrder_acyclic_topological (ms : List Model)
    (hwf : wfNames ms) (hacyc : ¬ HasCycle ms) :
    ∃ order, create_DAG ms = .ok order ∧
      (∀ m ∈ ms, m ∈ orderModels order) ∧ respectsDeps order := by
  cases h : create_DAG ms with
  | ok order =>
    obtain ⟨hc, hr, _⟩ := create_DAG_ok_facts h
    exact ⟨order, rfl, hc, hr⟩
  | error e =>
    exfalso
    obtain ⟨n, rfl⟩ := create_DAG_err_classify hwf h
    exact hacyc (cycleWitness_hasCycle (create_DAG_cyc h))

theorem C1_witness : wfNames allModels ∧
    (∃ order, create_DAG allModels = .ok order ∧
      (∀ m ∈ allModels, m ∈ orderModels order) ∧ respectsDeps order) :=
  ⟨by decide, C1_buildOrder_acyclic_topological allModels (by decide)
    (acyclic_of_no_reach allModels (by decide))⟩

/-! ## Claim C2 -/

/-- C2: for every name-resolvable set of entity schemas whose foreign
keys contain a cycle, the generation run fails with the circular
dependency error naming the entity being visited when the cycle was
found (a model lying on a cycle), the scan stops there, and no record
is persisted: the state comes back untouched and no entity was
populated. -/
theorem C2_buildOrder_cyclic_fails (gen : String → Nat → Nat) (rnd : Nat → Nat)
    (retries amount : Nat) (ms : List Model) (st : GenState)
    (hwf : wfNames ms) (hcyc : HasCycle ms) :
    ∃ m0, m0 ∈ ms ∧
      runScript gen rnd retries ms amount st =
        ⟨st, [], some (.dag (.circular m0.clsName))⟩ := by
  cases h : create_DAG ms with
  | ok order => exact (hasCycle_not_ok hcyc h).elim
  | error e =>
    obtain ⟨n, rfl⟩ := create_DAG_err_classify hwf h
    obtain ⟨m0, s, hn, hm0, _, _, _⟩ := create_DAG_cyc h
    refine ⟨m0, hm0, ?_⟩
    unfold runScript
    rw [h, hn]

theorem C2_witness : wfNames [cycA, cycB] ∧ HasCycle [cycA, cycB] ∧
    (∃ m0, m0 ∈ [cycA, cycB] ∧
      runScript genSeq rnd0 3 [cycA, cycB] 5 st0 =
        ⟨st0, [], some (.dag (.circular m0.clsName))⟩) :=
  ⟨by decide, ⟨cycA, [cycB], by decide⟩,
    C2_buildOrder_cyclic_fails genSeq rnd0 3 5 [cycA, cycB] st0 (by decide)
      ⟨cycA, [cycB], by decide⟩⟩

/-! ## Claim C6 -/

/-- C6: for every column that is a primary key or is auto-generated,
value synthesis returns the 0-based sequence index of the record within
its entity's batch, whatever the column's name, type and uniqueness
flag, taking priority over all name-based and type-based rules;
synthesis never invents a caller-visible identity. -/
theorem C6_pk_sequence_index (col : Col) (i : Nat)
    (h : col.primary_key = true ∨ col.autoincrement = true) :
    get_mapper_f col i = some (.idx i) := by
  unfold get_mapper_f
  rcases h with h | h <;> simp [h]

theorem C6_witness :
    ((mkCol "email" true false true .string none).primary_key = true ∨
      (mkCol "email" true false true .string none).autoincrement = true) ∧
    get_mapper_f (mkCol "email" true false true .string none) 7 = some (.idx 7) :=
  ⟨Or.inl rfl, C6_pk_sequence_index (mkCol "email" true false true .string none) 7 (Or.inl rfl)⟩

/-! ## Claim C8 -/

/-- C8: for every non-primary-key, non-auto-generated column, value
synthesis applies the name-based heuristics as a case-insensitive
substring match in the fixed order email, user_name/username,
full_name, phone, the first match winning over the type-based fallback
table; a column matching no name rule falls back to the type table. -/
theorem C8_name_heuristic_order (col : Col) (i : Nat)
    (h1 : col.primary_key = false) (h2 : col.autoincrement = false) :
    (strContains (strLower col.name) "email" = true →
      get_mapper_f col i = some (.call col.unique "email")) ∧
    (strContains (strLower col.name) "email" = false →
      (strContains (strLower col.name) "user_name" || strContains (strLower col.name) "username") = true →
      get_mapper_f col i = some (.call col.unique "user_name")) ∧
    (strContains (strLower col.name) "email" = false →
      (strContains (strLower col.name) "user_name" || strContains (strLower col.name) "username") = false →
      strContains (strLower col.name) "full_name" = true →
      get_mapper_f col i = some (.call col.unique "name")) ∧
    (strContains (strLower col.name) "email" = false →
      (strContains (strLower col.name) "user_name" || strContains (strLower col.name) "username") = false →
      strContains (strLower col.name) "full_name" = false →
      strContains (strLower col.name) "phone" = true →
      get_mapper_f col i = some (.call col.unique "phone_number")) ∧
    (strContains (strLower col.name) "email" = false →
      (strContains (strLower col.name) "user_name" || strContains (strLower col.name) "username") = false →
      strContains (strLower col.name) "full_name" = false →
      strContains (strLower col.name) "phone" = false →
      get_mapper_f col i = (fakerMapper col.ctype).map (fun key => .call col.unique key)) := by
  refine ⟨?_, ?_, ?_, ?_, ?_⟩
  · intro hc
    simp [get_mapper_f, h1, h2, hc]
  · intro hc hu
    simp [get_mapper_f, h1, h2, hc, hu]
  · intro hc hu hf
    rw [Bool.or_eq_false_iff] at hu
    simp [get_mapper_f, h1, h2, hc, hu.1, hu.2, hf]
  · intro hc hu hf hp
    rw [Bool.or_eq_false_iff] at hu
    simp [get_mapper_f, h1, h2, hc, hu.1, hu.2, hf, hp]
  · intro hc hu hf hp
    rw [Bool.or_eq_false_iff] at hu
    simp only [get_mapper_f, h1, h2, hc, hu.1, hu.2, hf, hp, Bool.or_self,
      Bool.false_eq_true, if_false]
    cases fakerMapper col.ctype <;> rfl

theorem C8_witness :
    (mkCol "Email_phone" false false true .integer none).primary_key = false ∧
    (mkCol "Email_phone" false false true .integer none).autoincrement = false ∧
    strContains (strLower (mkCol "Email_phone" false false true .integer none).name) "email" = true ∧
    strContains (strLower (mkCol "Email_phone" false false true .integer none).name) "phone" = true ∧
    get_mapper_f (mkCol "Email_phone" false false true .integer none) 4 =
      some (.call true "email") :=
  ⟨rfl, rfl, by decide, by decide,
    (C8_name_heuristic_order (mkCol "Email_phone" false false true .integer none) 4 rfl rfl).1
      (by decide)⟩

/-! ## Claim C10 -/

/-- C10: for every shipping-estimate request, the endpoint returns a
`ShippingEstimateResponse` in all three downstream outcomes, never
propagating a downstream failure: a successful downstream call is
passed through; a connection failure is answered with the fallback
computed by the fixed formula 5.0 + 2.0 per kg + 1.0 per 100 km with
delivery days at least 1; an HTTP error is answered with the fixed
values cost 99.99 and 99 days. -/
theorem C10_shipping_estimate_fallbacks (req : ShipReq) :
    (∀ r, get_shipping_estimate req (.ok r) = r) ∧
    (get_shipping_estimate req .requestError =
      { product_id := req.product_id,
        destination_zip_code := req.destination_zip_code,
        estimated_cost := pyRound2 (5 + req.weight_kg * 2 + req.distance_km * 1 / 100),
        estimated_delivery_days := max 1 (pyInt (req.distance_km / 500) + pyInt (req.weight_kg / 10)),
        carrier := "MockCarrier Express (Fallback)" }) ∧
    (1 ≤ (get_shipping_estimate req .requestError).estimated_delivery_days) ∧
    (∀ code, get_shipping_estimate req (.httpStatusError code) =
      { product_id := req.product_id,
        destination_zip_code := req.destination_zip_code,
        estimated_cost := 99.99,
        estimated_delivery_days := 99,
        carrier := "ErrorCarrier (Fallback)" }) := by
  refine ⟨fun r => rfl, rfl, ?_, fun code => rfl⟩
  show (1 : Int) ≤ max 1 (pyInt (req.distance_km / 500) + pyInt (req.weight_kg / 10))
  exact le_max_left _ _

/-! ## Claim C9 -/

theorem decStockFirst_find {l : List ProductRow} {pid : Nat} {p : ProductRow} (qty : Int)
    (h : l.find? (fun q => q.id = pid) = some p) :
    (decStockFirst l pid qty).find? (fun q => q.id = pid) =
      some { p with stock := p.stock - qty } := by
  induction l with
  | nil => exact nomatch h
  | cons r rest ih =>
    by_cases hr : r.id = pid
    · rw [List.find?_cons_of_pos _ (by simpa using hr)] at h
      cases h
      unfold decStockFirst
      rw [if_pos hr]
      exact List.find?_cons_of_pos _ (by simpa using hr)
    · rw [List.find?_cons_of_neg _ (by simpa using hr)] at h
      unfold decStockFirst
      rw [if_neg hr]
      rw [List.find?_cons_of_neg _ (by simpa using hr)]
      exact ih h

theorem decStockFirst_mem {l : List ProductRow} {pid : Nat} {p : ProductRow} {qty : Int}
    (h : l.find? (fun q => q.id = pid) = some p) :
    ∀ x ∈ decStockFirst l pid qty, x ∈ l ∨ x = { p with stock := p.stock - qty } := by
  induction l with
  | nil => exact fun x hx => absurd hx (List.not_mem_nil x)
  | cons r rest ih =>
    intro x hx
    by_cases hr : r.id = pid
    · rw [List.find?_cons_of_pos _ (by simpa using hr)] at h
      cases h
      unfold decStockFirst at hx
      rw [if_pos hr] at hx
      rcases List.mem_cons.mp hx with rfl | hx
      · exact Or.inr rfl
      · exact Or.inl (List.mem_cons_of_mem _ hx)
    · rw [List.find?_cons_of_neg _ (by simpa using hr)] at h
      unfold decStockFirst at hx
      rw [if_neg hr] at hx
      rcases List.mem_cons.mp hx with rfl | hx
      · exact Or.inl (List.mem_cons_self _ _)
      · rcases ih h x hx with hx | hx
        · exact Or.inl (List.mem_cons_of_mem _ hx)
        · exact Or.inr hx

/-- C9: for every order-creation request whose user and product exist,
if the requested quantity exceeds the product's current stock the
request fails with HTTP 400 and the database state is unchanged
(neither an order row persisted nor the stock changed); when it
succeeds, exactly one order row is appended and the product's stock
decreases by exactly the order quantity; consequently, with the
schema-enforced positive quantity, a product's stock never becomes
negative through order creation. -/
theorem C9_create_order_stock (db : Db) (oin : OrderIn) (p : ProductRow)
    (hu : oin.user_id ∈ db.users)
    (hp : db.products.find? (fun q => q.id = oin.product_id) = some p) :
    (p.stock < oin.quantity → create_order db oin = (db, .error (.err 400))) ∧
    (¬ p.stock < oin.quantity →
      ∃ o, create_order db oin =
          ({ users := db.users,
             products := decStockFirst db.products oin.product_id oin.quantity,
             orders := db.orders ++ [o] }, .ok o) ∧
        o.quantity = oin.quantity ∧ o.total_price = p.price * (oin.quantity : Rat) ∧
        (create_order db oin).1.products.find? (fun q => q.id = oin.product_id) =
          some { p with stock := p.stock - oin.quantity }) ∧
    ((∀ q ∈ db.products, 0 ≤ q.stock) → 0 < oin.quantity →
      ∀ q ∈ (create_order db oin).1.products, 0 ≤ q.stock) := by
  have hne : ¬ oin.user_id ∉ db.users := fun hc => hc hu
  have hsucc : ∀ (hge : ¬ p.stock < oin.quantity), create_order db oin =
      ({ users := db.users,
         products := decStockFirst db.products oin.product_id oin.quantity,
         orders := db.orders ++ [OrderRow.mk db.orders.length oin.user_id oin.product_id
           oin.quantity (p.price * (oin.quantity : Rat)) oin.status] },
        .ok (OrderRow.mk db.orders.length oin.user_id oin.product_id
           oin.quantity (p.price * (oin.quantity : Rat)) oin.status)) := by
    intro hge
    simp only [create_order]
    rw [if_neg hne]
    simp only [hp]
    rw [if_neg hge]
  have h400 : ∀ (hlt : p.stock < oin.quantity),
      create_order db oin = (db, .error (.err 400)) := by
    intro hlt
    simp only [create_order]
    rw [if_neg hne]
    simp only [hp]
    rw [if_pos hlt]
  refine ⟨h400, ?_, ?_⟩
  · intro hge
    refine ⟨_, hsucc hge, rfl, rfl, ?_⟩
    rw [hsucc hge]
    exact decStockFirst_find oin.quantity hp
  · intro hnn hq
    by_cases hlt : p.stock < oin.quantity
    · rw [h400 hlt]
      exact hnn
    · rw [hsucc hlt]
      intro q hqmem
      rcases decStockFirst_mem hp q hqmem with hq' | hq'
      · exact hnn q hq'
      · have := hnn p (List.mem_of_find?_eq_some hp)
        rw [hq']
        show (0 : Int) ≤ p.stock - oin.quantity
        omega

theorem C9_witness :
    (1 ∈ (Db.mk [1] [⟨5, 10, 3⟩] []).users) ∧
    ((Db.mk [1] [⟨5, 10, 3⟩] []).products.find?
      (fun q => q.id = (OrderIn.mk 1 5 2 "pending").product_id) = some ⟨5, 10, 3⟩) ∧
    ((⟨5, 10, 3⟩ : ProductRow).stock < (OrderIn.mk 1 5 2 "pending").quantity →
      create_order (Db.mk [1] [⟨5, 10, 3⟩] []) (OrderIn.mk 1 5 2 "pending") =
        (Db.mk [1] [⟨5, 10, 3⟩] [], .error (.err 400))) ∧
    (¬ (⟨5, 10, 3⟩ : ProductRow).stock < (OrderIn.mk 1 5 2 "pending").quantity →
      ∃ o, create_order (Db.mk [1] [⟨5, 10, 3⟩] []) (OrderIn.mk 1 5 2 "pending") =
          (Db.mk [1] (decStockFirst [⟨5, 10, 3⟩] (OrderIn.mk 1 5 2 "pending").product_id
            (OrderIn.mk 1 5 2 "pending").quantity) ([] ++ [o]), .ok o) ∧
        o.quantity = (OrderIn.mk 1 5 2 "pending").quantity ∧
        o.total_price = (⟨5, 10, 3⟩ : ProductRow).price *
          (((OrderIn.mk 1 5 2 "pending").quantity : Int) : Rat) ∧
        (create_order (Db.mk [1] [⟨5, 10, 3⟩] []) (OrderIn.mk 1 5 2 "pending")).1.products.find?
            (fun q => q.id = (OrderIn.mk 1 5 2 "pending").product_id) =
          some { (⟨5, 10, 3⟩ : ProductRow) with
                 stock := (⟨5, 10, 3⟩ : ProductRow).stock - (OrderIn.mk 1 5 2 "pending").quantity }) := by
  have h := C9_create_order_stock (Db.mk [1] [⟨5, 10, 3⟩] []) (OrderIn.mk 1 5 2 "pending")
    ⟨5, 10, 3⟩ (by decide) (by decide)
  exact ⟨by decide, by decide, h.1, h.2.1⟩

/-! ## State lemmas of the generator -/

theorem poolGet_poolAdd_same (pool : List (Model × List Record)) (m : Model) (r : Record) :
    poolGet (poolAdd pool m r) m = poolGet pool m ++ [r] := by
  induction pool with
  | nil => simp [poolAdd, poolGet]
  | cons e rest ih =>
    obtain ⟨m', rs⟩ := e
    by_cases hm : m' = m
    · simp [poolAdd, poolGet, hm]
    · simp [poolAdd, poolGet, hm, ih]

theorem poolGet_poolAdd_other (pool : List (Model × List Record)) (m m' : Model) (r : Record)
    (h : m' ≠ m) : poolGet (poolAdd pool m r) m' = poolGet pool m' := by
  have h2 : ¬ m = m' := fun hc => h hc.symm
  induction pool with
  | nil => simp [poolAdd, poolGet, h2]
  | cons e rest ih =>
    obtain ⟨m0, rs⟩ := e
    by_cases hm : m0 = m
    · subst hm
      simp [poolAdd, poolGet, h2]
    · by_cases hm' : m0 = m'
      · simp [poolAdd, poolGet, hm, hm', h]
      · simp [poolAdd, poolGet, hm, hm', ih]

theorem emGet_emSet_same (em : List (String × List Nat)) (k : String) (v : List Nat) :
    emGet (emSet em k v) k = v := by
  induction em with
  | nil => simp [emSet, emGet, alGet]
  | cons e rest ih =>
    obtain ⟨k', v'⟩ := e
    by_cases hk : k' = k
    · simp [emSet, emGet, alGet, hk]
    · simp only [emSet, if_neg hk]
      show emGet ((k', v') :: emSet rest k v) k = v
      simp only [emGet, alGet, if_neg hk]
      simpa [emGet] using ih

theorem emGet_emSet_other (em : List (String × List Nat)) (k k' : String) (v : List Nat)
    (h : k' ≠ k) : emGet (emSet em k v) k' = emGet em k' := by
  have h2 : ¬ k = k' := fun hc => h hc.symm
  induction em with
  | nil => simp [emSet, emGet, alGet, h2]
  | cons e rest ih =>
    obtain ⟨k0, v0⟩ := e
    by_cases hk : k0 = k
    · subst hk
      simp [emSet, emGet, alGet, h2]
    · by_cases hk' : k0 = k'
      · simp [emSet, emGet, alGet, hk, hk', h]
      · simp only [emSet, if_neg hk]
        show emGet ((k0, v0) :: emSet rest k v) k' = emGet ((k0, v0) :: rest) k'
        simp only [emGet, alGet, if_neg hk']
        simpa [emGet] using ih

theorem alGet_append {α β : Type} [DecidableEq α] (l1 l2 : List (α × β)) (k : α) :
    alGet (l1 ++ l2) k = ((alGet l1 k).rec (alGet l2 k) (fun v => some v) : Option β) := by
  induction l1 with
  | nil => simp [alGet]
  | cons e rest ih =>
    obtain ⟨k', v⟩ := e
    by_cases hk : k' = k
    · simp [alGet, hk]
    · simp [alGet, hk, ih]

theorem alGet_append_none {α β : Type} [DecidableEq α] {l1 : List (α × β)} (l2 : List (α × β))
    {k : α} (h : alGet l1 k = none) : alGet (l1 ++ l2) k = alGet l2 k := by
  rw [alGet_append, h]

theorem alGet_append_some {α β : Type} [DecidableEq α] {l1 : List (α × β)} (l2 : List (α × β))
    {k : α} {v : β} (h : alGet l1 k = some v) : alGet (l1 ++ l2) k = some v := by
  rw [alGet_append, h]

theorem uniqueDraw_fresh (gen : String → Nat → Nat) (key : String) :
    ∀ (b pos : Nat) (seen : List Nat) (v pos' : Nat),
      uniqueDraw gen key b pos seen = (some v, pos') → v ∉ seen := by
  intro b
  induction b with
  | zero =>
    intro pos seen v pos' h
    unfold uniqueDraw at h
    exact nomatch h
  | succ bb ih =>
    intro pos seen v pos' h
    unfold uniqueDraw at h
    by_cases hv : gen key pos ∈ seen
    · rw [if_pos hv] at h
      exact ih _ _ _ _ h
    · rw [if_neg hv] at h
      cases h
      exact hv

/-! ## Per-column step lemmas -/

theorem colStep_pool (gen : String → Nat → Nat) (rnd : Nat → Nat) (retries : Nat)
    (deps : List (String × Model)) (i : Nat) (c : Col) (st : GenState) :
    (csState (colStep gen rnd retries deps i c st)).pool = st.pool := by
  cases hd : alGet deps c.name with
  | some dm =>
    by_cases hz : (poolGet st.pool dm).length = 0
    · simp [colStep, hd, hz, csState]
    · simp [colStep, hd, hz, csState]
  | none =>
    cases hm : get_mapper_f c i with
    | none => simp [colStep, hd, hm, csState]
    | some fr =>
      cases fr with
      | idx n => simp [colStep, hd, hm, csState]
      | call u key =>
        cases u with
        | false => simp [colStep, hd, hm, csState]
        | true =>
          rcases hud : uniqueDraw gen key retries st.pos (emGet st.emitted key) with ⟨ov, pos'⟩
          cases ov with
          | none => simp [colStep, hd, hm, hud, csState]
          | some v => simp [colStep, hd, hm, hud, csState]

theorem colStep_emitted_mono (gen : String → Nat → Nat) (rnd : Nat → Nat) (retries : Nat)
    (deps : List (String × Model)) (i : Nat) (c : Col) (st : GenState) :
    ∀ key' v', v' ∈ emGet st.emitted key' →
      v' ∈ emGet (csState (colStep gen rnd retries deps i c st)).emitted key' := by
  intro key' v' hv
  cases hd : alGet deps c.name with
  | some dm =>
    by_cases hz : (poolGet st.pool dm).length = 0
    · simpa [colStep, hd, hz, csState] using hv
    · simpa [colStep, hd, hz, csState] using hv
  | none =>
    cases hm : get_mapper_f c i with
    | none => simpa [colStep, hd, hm, csState] using hv
    | some fr =>
      cases fr with
      | idx n => simpa [colStep, hd, hm, csState] using hv
      | call u key =>
        cases u with
        | false => simpa [colStep, hd, hm, csState] using hv
        | true =>
          rcases hud : uniqueDraw gen key retries st.pos (emGet st.emitted key) with ⟨ov, pos'⟩
          cases ov with
          | none => simpa [colStep, hd, hm, hud, csState] using hv
          | some v =>
            simp only [colStep, hd, hm, hud, if_true, csState]
            by_cases hk : key' = key
            · subst hk
              rw [emGet_emSet_same]
              exact List.mem_append_left _ hv
            · rw [emGet_emSet_other _ _ _ _ hk]
              exact hv

theorem colStep_unique_shape (gen : String → Nat → Nat) (rnd : Nat → Nat) (retries : Nat)
    (deps : List (String × Model)) (i : Nat) (c : Col) (st : GenState) (key : String)
    (hd : alGet deps c.name = none) (hm : get_mapper_f c i = some (.call true key)) :
    (∃ v st', colStep gen rnd retries deps i c st = .val v st') ∨
    (∃ st', colStep gen rnd retries deps i c st = .uniqF st') := by
  rcases hud : uniqueDraw gen key retries st.pos (emGet st.emitted key) with ⟨ov, pos'⟩
  cases ov with
  | none => exact Or.inr ⟨{ st with pos := pos' }, by simp [colStep, hd, hm, hud]⟩
  | some v =>
    exact Or.inl ⟨v,
      GenState.mk st.pool pos' st.rpos (emSet st.emitted key (emGet st.emitted key ++ [v])),
      by simp [colStep, hd, hm, hud]⟩

theorem colStep_val_unique (gen : String → Nat → Nat) (rnd : Nat → Nat) (retries : Nat)
    (deps : List (String × Model)) (i : Nat) (c : Col) (st st' : GenState)
    (key : String) (v : Nat)
    (hd : alGet deps c.name = none) (hm : get_mapper_f c i = some (.call true key))
    (h : colStep gen rnd retries deps i c st = .val v st') :
    v ∉ emGet st.emitted key ∧ v ∈ emGet st'.emitted key := by
  rcases hud : uniqueDraw gen key retries st.pos (emGet st.emitted key) with ⟨ov, pos'⟩
  cases ov with
  | none => simp [colStep, hd, hm, hud] at h
  | some v0 =>
    simp only [colStep, hd, hm, hud, if_true] at h
    cases h
    refine ⟨uniqueDraw_fresh gen key _ _ _ _ _ hud, ?_⟩
    rw [emGet_emSet_same]
    exact List.mem_append_right _ (List.mem_singleton.mpr rfl)

theorem colStep_val_idx (gen : String → Nat → Nat) (rnd : Nat → Nat) (retries : Nat)
    (deps : List (String × Model)) (i : Nat) (c : Col) (st : GenState) (n : Nat)
    (hd : alGet deps c.name = none) (hm : get_mapper_f c i = some (.idx n)) :
    colStep gen rnd retries deps i c st = .val n st := by
  simp [colStep, hd, hm]

theorem colStep_skip (gen : String → Nat → Nat) (rnd : Nat → Nat) (retries : Nat)
    (deps : List (String × Model)) (i : Nat) (c : Col) (st : GenState)
    (hd : alGet deps c.name = none) (hm : get_mapper_f c i = none) :
    colStep gen rnd retries deps i c st = .skip st := by
  simp [colStep, hd, hm]

theorem mapper_cases (c : Col) :
    (∀ i, get_mapper_f c i = some (.idx i)) ∨
    (∃ key, ∀ i, get_mapper_f c i = some (.call c.unique key)) ∨
    (∀ i, get_mapper_f c i = none) := by
  by_cases hpk : (c.primary_key || c.autoincrement) = true
  · exact Or.inl (fun i => by simp [get_mapper_f, hpk])
  · have hp1 : c.primary_key = false := by
      cases hcp : c.primary_key
      · rfl
      · exact absurd (by simp [hcp]) hpk
    have hp2 : c.autoincrement = false := by
      cases hca : c.autoincrement
      · rfl
      · exact absurd (by simp [hca]) hpk
    by_cases h1 : strContains (strLower c.name) "email" = true
    · exact Or.inr (Or.inl ⟨"email", fun i => by simp [get_mapper_f, hp1, hp2, h1]⟩)
    · by_cases h2 : (strContains (strLower c.name) "user_name" ||
          strContains (strLower c.name) "username") = true
      · refine Or.inr (Or.inl ⟨"user_name", fun i => ?_⟩)
        simp only [get_mapper_f, hp1, hp2, Bool.or_self, Bool.false_eq_true, if_false]
        rw [if_neg (by simp [h1]), if_pos h2]
      · by_cases h3 : strContains (strLower c.name) "full_name" = true
        · refine Or.inr (Or.inl ⟨"name", fun i => ?_⟩)
          simp only [get_mapper_f, hp1, hp2, Bool.or_self, Bool.false_eq_true, if_false]
          rw [if_neg (by simp [h1]), if_neg (by simp [h2]), if_pos h3]
        · by_cases h4 : strContains (strLower c.name) "phone" = true
          · refine Or.inr (Or.inl ⟨"phone_number", fun i => ?_⟩)
            simp only [get_mapper_f, hp1, hp2, Bool.or_self, Bool.false_eq_true, if_false]
            rw [if_neg (by simp [h1]), if_neg (by simp [h2]), if_neg (by simp [h3]),
              if_pos h4]
          · cases hf : fakerMapper c.ctype with
            | some key =>
              refine Or.inr (Or.inl ⟨key, fun i => ?_⟩)
              simp only [get_mapper_f, hp1, hp2, Bool.or_self, Bool.false_eq_true, if_false]
              rw [if_neg (by simp [h1]), if_neg (by simp [h2]), if_neg (by simp [h3]),
                if_neg (by simp [h4]), hf]
            | none =>
              refine Or.inr (Or.inr (fun i => ?_))
              simp only [get_mapper_f, hp1, hp2, Bool.or_self, Bool.false_eq_true, if_false]
              rw [if_neg (by simp [h1]), if_neg (by simp [h2]), if_neg (by simp [h3]),
                if_neg (by simp [h4]), hf]

/-! ## Record-build lemmas -/

theorem bd_pool (gen : String → Nat → Nat) (rnd : Nat → Nat) (retries : Nat)
    (deps : List (String × Model)) (i : Nat) :
    ∀ (cols : List Col) (data : Record) (st : GenState),
      (bdState (buildData gen rnd retries deps i cols data st)).pool = st.pool := by
  intro cols
  induction cols with
  | nil => intro data st; simp [buildData, bdState]
  | cons c cs ih =>
    intro data st
    have hp := colStep_pool gen rnd retries deps i c st
    cases hcs : colStep gen rnd retries deps i c st with
    | fail e st' =>
      rw [hcs] at hp
      simp only [buildData, hcs, bdState]
      exact hp
    | uniqF st' =>
      rw [hcs] at hp
      simp only [buildData, hcs, bdState]
      exact hp
    | val v st' =>
      rw [hcs] at hp
      simp only [buildData, hcs]
      rw [ih]
      exact hp
    | skip st' =>
      rw [hcs] at hp
      simp only [buildData, hcs]
      rw [ih]
      exact hp

theorem bd_emitted_mono (gen : String → Nat → Nat) (rnd : Nat → Nat) (retries : Nat)
    (deps : List (String × Model)) (i : Nat) :
    ∀ (cols : List Col) (data : Record) (st : GenState) (key' : String) (v' : Nat),
      v' ∈ emGet st.emitted key' →
      v' ∈ emGet (bdState (buildData gen rnd retries deps i cols data st)).emitted key' := by
  intro cols
  induction cols with
  | nil => intro data st key' v' hv; simpa [buildData, bdState] using hv
  | cons c cs ih =>
    intro data st key' v' hv
    have hmono := colStep_emitted_mono gen rnd retries deps i c st key' v' hv
    cases hcs : colStep gen rnd retries deps i c st with
    | fail e st' =>
      rw [hcs] at hmono
      simp only [buildData, hcs, bdState]
      exact hmono
    | uniqF st' =>
      rw [hcs] at hmono
      simp only [buildData, hcs, bdState]
      exact hmono
    | val v st' =>
      rw [hcs] at hmono
      simp only [buildData, hcs]
      exact ih _ _ _ _ hmono
    | skip st' =>
      rw [hcs] at hmono
      simp only [buildData, hcs]
      exact ih _ _ _ _ hmono

theorem bd_extends (gen : String → Nat → Nat) (rnd : Nat → Nat) (retries : Nat)
    (deps : List (String × Model)) (i : Nat) :
    ∀ (cols : List Col) (data out : Record) (st st' : GenState),
      buildData gen rnd retries deps i cols data st = .ok out st' →
      ∃ d, out = data ++ d ∧ ∀ p ∈ d, p.1 ∈ cols.map (fun x => x.name) := by
  intro cols
  induction cols with
  | nil =>
    intro data out st st' h
    simp only [buildData] at h
    cases h
    exact ⟨[], by simp, fun p hp => absurd hp (List.not_mem_nil p)⟩
  | cons c cs ih =>
    intro data out st st' h
    cases hcs : colStep gen rnd retries deps i c st with
    | fail e st1 =>
      simp only [buildData, hcs] at h
      exact nomatch h
    | uniqF st1 =>
      simp only [buildData, hcs] at h
      exact nomatch h
    | val v st1 =>
      simp only [buildData, hcs] at h
      obtain ⟨d, hd, hk⟩ := ih _ _ _ _ h
      refine ⟨(c.name, v) :: d, by simpa using hd, ?_⟩
      intro p hp
      rcases List.mem_cons.mp hp with rfl | hp
      · simp
      · exact List.mem_cons_of_mem _ (hk p hp)
    | skip st1 =>
      simp only [buildData, hcs] at h
      obtain ⟨d, hd, hk⟩ := ih _ _ _ _ h
      exact ⟨d, hd, fun p hp => List.mem_cons_of_mem _ (hk p hp)⟩

theorem bd_uniq_col (gen : String → Nat → Nat) (rnd : Nat → Nat) (retries : Nat)
    (deps : List (String × Model)) (i : Nat) :
    ∀ (cols : List Col) (data : Record) (st : GenState) (c1 : Col) (st1 : GenState),
      buildData gen rnd retries deps i cols data st = .uniq c1 st1 → c1 ∈ cols := by
  intro cols
  induction cols with
  | nil =>
    intro data st c1 st1 h
    simp only [buildData] at h
    exact nomatch h
  | cons c cs ih =>
    intro data st c1 st1 h
    cases hcs : colStep gen rnd retries deps i c st with
    | fail e st' =>
      simp only [buildData, hcs] at h
      exact nomatch h
    | uniqF st' =>
      simp only [buildData, hcs] at h
      cases h
      exact List.mem_cons_self _ _
    | val v st' =>
      simp only [buildData, hcs] at h
      exact List.mem_cons_of_mem _ (ih _ _ _ _ h)
    | skip st' =>
      simp only [buildData, hcs] at h
      exact List.mem_cons_of_mem _ (ih _ _ _ _ h)

theorem mem_name_unique :
    ∀ {cols : List Col} {c c' : Col},
      (cols.map (fun x => x.name)).Nodup → c ∈ cols → c' ∈ cols → c'.name = c.name →
      c' = c := by
  intro cols
  induction cols with
  | nil =>
    intro c c' _ hc _ _
    exact absurd hc (List.not_mem_nil c)
  | cons c0 rest ih =>
    intro c c' hnames hc hc' hn
    simp only [List.map_cons, List.nodup_cons] at hnames
    rcases List.mem_cons.mp hc with rfl | hcr
    · rcases List.mem_cons.mp hc' with rfl | hcr'
      · rfl
      · exact absurd (hn ▸ List.mem_map_of_mem (fun x => x.name) hcr') hnames.1
    · rcases List.mem_cons.mp hc' with rfl | hcr'
      · exfalso
        apply hnames.1
        rw [hn]
        exact List.mem_map_of_mem (fun x => x.name) hcr
      · exact ih hnames.2 hcr hcr' hn

theorem alGet_single_ne {α β : Type} [DecidableEq α] {k k' : α} (v : β) (h : k' ≠ k) :
    alGet [(k', v)] k = none := by
  simp [alGet, h]

theorem alGet_none_keys {α β : Type} [DecidableEq α] {l : List (α × β)} {k : α}
    (h : ∀ p ∈ l, ¬ p.1 = k) : alGet l k = none := by
  induction l with
  | nil => rfl
  | cons e rest ih =>
    obtain ⟨k', v⟩ := e
    simp only [alGet, if_neg (h (k', v) (List.mem_cons_self _ _))]
    exact ih (fun p hp => h p (List.mem_cons_of_mem _ hp))

theorem bd_unique_val (gen : String → Nat → Nat) (rnd : Nat → Nat) (retries : Nat)
    (deps : List (String × Model)) (i : Nat) (c : Col) (key : String)
    (hd : alGet deps c.name = none) (hkey : get_mapper_f c i = some (.call true key)) :
    ∀ (cols : List Col) (data out : Record) (st st' : GenState),
      c ∈ cols → (cols.map (fun x => x.name)).Nodup → alGet data c.name = none →
      buildData gen rnd retries deps i cols data st = .ok out st' →
      ∃ v, alGet out c.name = some v ∧ v ∉ emGet st.emitted key ∧
        v ∈ emGet st'.emitted key := by
  intro cols
  induction cols with
  | nil =>
    intro data out st st' hc _ _ _
    exact absurd hc (List.not_mem_nil c)
  | cons c0 cs ih =>
    intro data out st st' hc hnames hdata h
    rcases List.mem_cons.mp hc with rfl | hc
    · rcases colStep_unique_shape gen rnd retries deps i c st key hd hkey with
        ⟨v, st1, hcs⟩ | ⟨st1, hcs⟩
      · obtain ⟨hfresh, hmem⟩ := colStep_val_unique gen rnd retries deps i c st st1 key v
          hd hkey hcs
        simp only [buildData, hcs] at h
        obtain ⟨d, hdone, _⟩ := bd_extends gen rnd retries deps i cs _ _ _ _ h
        refine ⟨v, ?_, hfresh, ?_⟩
        · rw [hdone, List.append_assoc, alGet_append_none _ hdata]
          simp [alGet]
        · have := bd_emitted_mono gen rnd retries deps i cs (data ++ [(c.name, v)]) st1 key v hmem
          rw [h] at this
          exact this
      · simp only [buildData, hcs] at h
        exact nomatch h
    · have hne : c0.name ≠ c.name := by
        intro hcc
        have : c0 = c := mem_name_unique hnames (List.mem_cons.mpr (Or.inr hc))
          (List.mem_cons_self _ _) hcc
        subst this
        simp only [List.map_cons, List.nodup_cons] at hnames
        exact hnames.1 (List.mem_map_of_mem (fun x => x.name) hc)
      have hnames' : (cs.map (fun x => x.name)).Nodup := by
        simp only [List.map_cons, List.nodup_cons] at hnames
        exact hnames.2
      cases hcs : colStep gen rnd retries deps i c0 st with
      | fail e st1 =>
        simp only [buildData, hcs] at h
        exact nomatch h
      | uniqF st1 =>
        simp only [buildData, hcs] at h
        exact nomatch h
      | val v st1 =>
        simp only [buildData, hcs] at h
        have hdata' : alGet (data ++ [(c0.name, v)]) c.name = none := by
          rw [alGet_append_none _ hdata]
          exact alGet_single_ne v hne
        obtain ⟨w, hw1, hw2, hw3⟩ := ih _ _ _ _ hc hnames' hdata' h
        refine ⟨w, hw1, ?_, hw3⟩
        intro hmem
        have := colStep_emitted_mono gen rnd retries deps i c0 st key w hmem
        rw [hcs] at this
        exact hw2 this
      | skip st1 =>
        simp only [buildData, hcs] at h
        obtain ⟨w, hw1, hw2, hw3⟩ := ih _ _ _ _ hc hnames' hdata h
        refine ⟨w, hw1, ?_, hw3⟩
        intro hmem
        have := colStep_emitted_mono gen rnd retries deps i c0 st key w hmem
        rw [hcs] at this
        exact hw2 this

theorem bd_idx_val (gen : String → Nat → Nat) (rnd : Nat → Nat) (retries : Nat)
    (deps : List (String × Model)) (i : Nat) (c : Col)
    (hd : alGet deps c.name = none) (hkey : get_mapper_f c i = some (.idx i)) :
    ∀ (cols : List Col) (data out : Record) (st st' : GenState),
      c ∈ cols → (cols.map (fun x => x.name)).Nodup → alGet data c.name = none →
      buildData gen rnd retries deps i cols data st = .ok out st' →
      alGet out c.name = some i := by
  intro cols
  induction cols with
  | nil =>
    intro data out st st' hc _ _ _
    exact absurd hc (List.not_mem_nil c)
  | cons c0 cs ih =>
    intro data out st st' hc hnames hdata h
    rcases List.mem_cons.mp hc with rfl | hc
    · have hcs := colStep_val_idx gen rnd retries deps i c st i hd hkey
      simp only [buildData, hcs] at h
      obtain ⟨d, hdone, _⟩ := bd_extends gen rnd retries deps i cs _ _ _ _ h
      rw [hdone, List.append_assoc, alGet_append_none _ hdata]
      simp [alGet]
    · have hne : c0.name ≠ c.name := by
        intro hcc
        have : c0 = c := mem_name_unique hnames (List.mem_cons.mpr (Or.inr hc))
          (List.mem_cons_self _ _) hcc
        subst this
        simp only [List.map_cons, List.nodup_cons] at hnames
        exact hnames.1 (List.mem_map_of_mem (fun x => x.name) hc)
      have hnames' : (cs.map (fun x => x.name)).Nodup := by
        simp only [List.map_cons, List.nodup_cons] at hnames
        exact hnames.2
      cases hcs : colStep gen rnd retries deps i c0 st with
      | fail e st1 =>
        simp only [buildData, hcs] at h
        exact nomatch h
      | uniqF st1 =>
        simp only [buildData, hcs] at h
        exact nomatch h
      | val v st1 =>
        simp only [buildData, hcs] at h
        have hdata' : alGet (data ++ [(c0.name, v)]) c.name = none := by
          rw [alGet_append_none _ hdata]
          exact alGet_single_ne v hne
        exact ih _ _ _ _ hc hnames' hdata' h
      | skip st1 =>
        simp only [buildData, hcs] at h
        exact ih _ _ _ _ hc hnames' hdata h

theorem bd_none_val (gen : String → Nat → Nat) (rnd : Nat → Nat) (retries : Nat)
    (deps : List (String × Model)) (i : Nat) (c : Col)
    (hd : alGet deps c.name = none) (hkey : ∀ j, get_mapper_f c j = none) :
    ∀ (cols : List Col) (data out : Record) (st st' : GenState),
      c ∈ cols → (cols.map (fun x => x.name)).Nodup → alGet data c.name = none →
      buildData gen rnd retries deps i cols data st = .ok out st' →
      alGet out c.name = none := by
  intro cols
  induction cols with
  | nil =>
    intro data out st st' hc _ _ _
    exact absurd hc (List.not_mem_nil c)
  | cons c0 cs ih =>
    intro data out st st' hc hnames hdata h
    rcases List.mem_cons.mp hc with rfl | hc
    · have hcs := colStep_skip gen rnd retries deps i c st hd (hkey i)
      simp only [buildData, hcs] at h
      obtain ⟨d, hdone, hkeys⟩ := bd_extends gen rnd retries deps i cs _ _ _ _ h
      rw [hdone, alGet_append_none _ hdata]
      refine alGet_none_keys ?_
      intro p hp hpk
      simp only [List.map_cons, List.nodup_cons] at hnames
      exact hnames.1 (hpk ▸ hkeys p hp)
    · have hne : c0.name ≠ c.name := by
        intro hcc
        have : c0 = c := mem_name_unique hnames (List.mem_cons.mpr (Or.inr hc))
          (List.mem_cons_self _ _) hcc
        subst this
        simp only [List.map_cons, List.nodup_cons] at hnames
        exact hnames.1 (List.mem_map_of_mem (fun x => x.name) hc)
      have hnames' : (cs.map (fun x => x.name)).Nodup := by
        simp only [List.map_cons, List.nodup_cons] at hnames
        exact hnames.2
      cases hcs : colStep gen rnd retries deps i c0 st with
      | fail e st1 =>
        simp only [buildData, hcs] at h
        exact nomatch h
      | uniqF st1 =>
        simp only [buildData, hcs] at h
        exact nomatch h
      | val v st1 =>
        simp only [buildData, hcs] at h
        have hdata' : alGet (data ++ [(c0.name, v)]) c.name = none := by
          rw [alGet_append_none _ hdata]
          exact alGet_single_ne v hne
        exact ih _ _ _ _ hc hnames' hdata' h
      | skip st1 =>
        simp only [buildData, hcs] at h
        exact ih _ _ _ _ hc hnames' hdata h

/-! ## Batch-loop lemmas -/

theorem gl_pool_extends (gen : String → Nat → Nat) (rnd : Nat → Nat) (retries : Nat)
    (model : Model) (deps : List (String × Model)) :
    ∀ (rem i : Nat) (st : GenState) (m' : Model),
      ∃ t, poolGet (gmState (genLoop gen rnd retries model deps rem i st)).pool m' =
        poolGet st.pool m' ++ t := by
  intro rem
  induction rem with
  | zero => exact fun i st m' => ⟨[], by simp [genLoop, gmState]⟩
  | succ r ih =>
    intro i st m'
    have hpool := bd_pool gen rnd retries deps i model.cols [] st
    cases hbd : buildData gen rnd retries deps i model.cols [] st with
    | fail e st' =>
      rw [hbd] at hpool
      simp only [bdState] at hpool
      refine ⟨[], ?_⟩
      simp only [genLoop, hbd, gmState, List.append_nil]
      rw [hpool]
    | uniq c st' =>
      rw [hbd] at hpool
      simp only [bdState] at hpool
      refine ⟨[], ?_⟩
      simp only [genLoop, hbd, gmState, List.append_nil]
      rw [hpool]
    | ok data st' =>
      rw [hbd] at hpool
      simp only [bdState] at hpool
      obtain ⟨t, ht⟩ := ih (i + 1) { st' with pool := poolAdd st'.pool model data } m'
      simp only [genLoop, hbd]
      by_cases hm : m' = model
      · subst hm
        refine ⟨[data] ++ t, ?_⟩
        rw [ht]
        show poolGet (poolAdd st'.pool m' data) m' ++ t = _
        rw [poolGet_poolAdd_same, hpool, List.append_assoc]
      · refine ⟨t, ?_⟩
        rw [ht]
        show poolGet (poolAdd st'.pool model data) m' ++ t = _
        rw [poolGet_poolAdd_other _ _ _ _ hm, hpool]

theorem gl_pool_other (gen : String → Nat → Nat) (rnd : Nat → Nat) (retries : Nat)
    (model : Model) (deps : List (String × Model)) :
    ∀ (rem i : Nat) (st : GenState) (m' : Model), m' ≠ model →
      poolGet (gmState (genLoop gen rnd retries model deps rem i st)).pool m' =
        poolGet st.pool m' := by
  intro rem
  induction rem with
  | zero => exact fun i st m' _ => by simp [genLoop, gmState]
  | succ r ih =>
    intro i st m' hm
    have hpool := bd_pool gen rnd retries deps i model.cols [] st
    cases hbd : buildData gen rnd retries deps i model.cols [] st with
    | fail e st' =>
      rw [hbd] at hpool
      simp only [bdState] at hpool
      simp only [genLoop, hbd, gmState]
      rw [hpool]
    | uniq c st' =>
      rw [hbd] at hpool
      simp only [bdState] at hpool
      simp only [genLoop, hbd, gmState]
      rw [hpool]
    | ok data st' =>
      rw [hbd] at hpool
      simp only [bdState] at hpool
      simp only [genLoop, hbd]
      rw [ih (i + 1) _ m' hm]
      show poolGet (poolAdd st'.pool model data) m' = _
      rw [poolGet_poolAdd_other _ _ _ _ hm, hpool]

theorem gl_warn (gen : String → Nat → Nat) (rnd : Nat → Nat) (retries : Nat)
    (model : Model) (deps : List (String × Model)) :
    ∀ (rem i : Nat) (st st' : GenState) (w : String),
      genLoop gen rnd retries model deps rem i st = .done st' (some w) →
      ∃ c ∈ model.cols, w = warnMsg model c := by
  intro rem
  induction rem with
  | zero =>
    intro i st st' w h
    simp only [genLoop] at h
    cases h
  | succ r ih =>
    intro i st st' w h
    cases hbd : buildData gen rnd retries deps i model.cols [] st with
    | fail e st1 =>
      simp only [genLoop, hbd] at h
      exact nomatch h
    | uniq c st1 =>
      simp only [genLoop, hbd] at h
      cases h
      exact ⟨c, bd_uniq_col gen rnd retries deps i model.cols [] st c _ hbd, rfl⟩
    | ok data st1 =>
      simp only [genLoop, hbd] at h
      exact ih (i + 1) _ st' w h

theorem gm_pool_extends (gen : String → Nat → Nat) (rnd : Nat → Nat) (retries : Nat)
    (entry : Entry) (amount : Nat) (st : GenState) (m' : Model) :
    ∃ t, poolGet (gmState (generate_model gen rnd retries entry amount st)).pool m' =
      poolGet st.pool m' ++ t := by
  unfold generate_model
  exact gl_pool_extends gen rnd retries entry.1 entry.2 amount 0 _ m'

theorem gm_pool_other (gen : String → Nat → Nat) (rnd : Nat → Nat) (retries : Nat)
    (entry : Entry) (amount : Nat) (st : GenState) (m' : Model) (hm : m' ≠ entry.1) :
    poolGet (gmState (generate_model gen rnd retries entry amount st)).pool m' =
      poolGet st.pool m' := by
  unfold generate_model
  exact gl_pool_other gen rnd retries entry.1 entry.2 amount 0 _ m' hm

theorem ra_pool_extends (gen : String → Nat → Nat) (rnd : Nat → Nat) (retries : Nat)
    (amount : Nat) :
    ∀ (entries : List Entry) (st : GenState) (m' : Model),
      ∃ t, poolGet (runAll gen rnd retries amount entries st).st.pool m' =
        poolGet st.pool m' ++ t := by
  intro entries
  induction entries with
  | nil => exact fun st m' => ⟨[], by simp [runAll]⟩
  | cons e rest ih =>
    intro st m'
    obtain ⟨t1, ht1⟩ := gm_pool_extends gen rnd retries e amount st m'
    cases hgm : generate_model gen rnd retries e amount st with
    | fail er st' =>
      rw [hgm] at ht1
      simp only [gmState] at ht1
      exact ⟨t1, by simp only [runAll, hgm]; exact ht1⟩
    | done st' w =>
      rw [hgm] at ht1
      simp only [gmState] at ht1
      obtain ⟨t2, ht2⟩ := ih st' m'
      refine ⟨t1 ++ t2, ?_⟩
      simp only [runAll, hgm]
      rw [ht2]
      show poolGet st'.pool m' ++ t2 = _
      rw [ht1, List.append_assoc]

theorem runScript_pool_extends (gen : String → Nat → Nat) (rnd : Nat → Nat) (retries : Nat)
    (ms : List Model) (amount : Nat) (st : GenState) (m' : Model) :
    ∃ t, poolGet (runScript gen rnd retries ms amount st).st.pool m' =
      poolGet st.pool m' ++ t := by
  unfold runScript
  cases hdag : create_DAG ms with
  | error e => exact ⟨[], by simp⟩
  | ok sorted => exact ra_pool_extends gen rnd retries amount sorted st m'

/-! ## Uniqueness of synthesized values (claim C5) -/

theorem valuesAt_append (l1 l2 : List Record) (k : String) :
    valuesAt (l1 ++ l2) k = valuesAt l1 k ++ valuesAt l2 k := by
  simp [valuesAt, List.filterMap_append]

theorem valuesAt_single_some {r : Record} {k : String} {v : Nat} (h : alGet r k = some v) :
    valuesAt [r] k = [v] := by
  simp [valuesAt, h]

theorem valuesAt_single_none {r : Record} {k : String} (h : alGet r k = none) :
    valuesAt [r] k = [] := by
  simp [valuesAt, h]

theorem gl_call_nodup (gen : String → Nat → Nat) (rnd : Nat → Nat) (retries : Nat)
    (model : Model) (deps : List (String × Model)) (c : Col) (key : String)
    (hc : c ∈ model.cols) (hnames : (model.cols.map (fun x => x.name)).Nodup)
    (hdep : alGet deps c.name = none)
    (hkey : ∀ j, get_mapper_f c j = some (.call true key)) :
    ∀ (rem i : Nat) (st : GenState) (old t : List Record),
      poolGet st.pool model = old ++ t →
      (∀ v ∈ valuesAt t c.name, v ∈ emGet st.emitted key) →
      (valuesAt t c.name).Nodup →
      ∃ t', poolGet (gmState (genLoop gen rnd retries model deps rem i st)).pool model =
        old ++ t' ∧ (valuesAt t' c.name).Nodup := by
  intro rem
  induction rem with
  | zero =>
    intro i st old t hpool _ hnd
    exact ⟨t, by simpa [genLoop, gmState] using hpool, hnd⟩
  | succ r ih =>
    intro i st old t hpool hmem hnd
    have hbp := bd_pool gen rnd retries deps i model.cols [] st
    cases hbd : buildData gen rnd retries deps i model.cols [] st with
    | fail e st1 =>
      rw [hbd] at hbp
      simp only [bdState] at hbp
      refine ⟨t, ?_, hnd⟩
      simp only [genLoop, hbd, gmState]
      rw [hbp]
      exact hpool
    | uniq c1 st1 =>
      rw [hbd] at hbp
      simp only [bdState] at hbp
      refine ⟨t, ?_, hnd⟩
      simp only [genLoop, hbd, gmState]
      rw [hbp]
      exact hpool
    | ok data st1 =>
      rw [hbd] at hbp
      simp only [bdState] at hbp
      obtain ⟨v, hv1, hv2, hv3⟩ := bd_unique_val gen rnd retries deps i c key hdep (hkey i)
        model.cols [] data st st1 hc hnames rfl hbd
      simp only [genLoop, hbd]
      refine ih (i + 1) { st1 with pool := poolAdd st1.pool model data } old (t ++ [data])
        ?_ ?_ ?_
      · show poolGet (poolAdd st1.pool model data) model = _
        rw [poolGet_poolAdd_same, hbp, hpool, List.append_assoc]
      · intro u hu
        rw [valuesAt_append, valuesAt_single_some hv1] at hu
        show u ∈ emGet st1.emitted key
        rcases List.mem_append.mp hu with hu | hu
        · have := hmem u hu
          have hmono := bd_emitted_mono gen rnd retries deps i model.cols [] st key u this
          rw [hbd] at hmono
          simpa [bdState] using hmono
        · rcases List.mem_singleton.mp hu with rfl
          exact hv3
      · rw [valuesAt_append, valuesAt_single_some hv1]
        rw [List.nodup_append]
        refine ⟨hnd, List.nodup_singleton v, ?_⟩
        intro u hu
        simp only [List.mem_singleton]
        intro hc'
        subst hc'
        exact hv2 (hmem u hu)

theorem gl_idx_nodup (gen : String → Nat → Nat) (rnd : Nat → Nat) (retries : Nat)
    (model : Model) (deps : List (String × Model)) (c : Col)
    (hc : c ∈ model.cols) (hnames : (model.cols.map (fun x => x.name)).Nodup)
    (hdep : alGet deps c.name = none)
    (hkey : ∀ j, get_mapper_f c j = some (.idx j)) :
    ∀ (rem i : Nat) (st : GenState) (old t : List Record),
      poolGet st.pool model = old ++ t →
      (∀ v ∈ valuesAt t c.name, v < i) →
      (valuesAt t c.name).Nodup →
      ∃ t', poolGet (gmState (genLoop gen rnd retries model deps rem i st)).pool model =
        old ++ t' ∧ (valuesAt t' c.name).Nodup := by
  intro rem
  induction rem with
  | zero =>
    intro i st old t hpool _ hnd
    exact ⟨t, by simpa [genLoop, gmState] using hpool, hnd⟩
  | succ r ih =>
    intro i st old t hpool hmem hnd
    have hbp := bd_pool gen rnd retries deps i model.cols [] st
    cases hbd : buildData gen rnd retries deps i model.cols [] st with
    | fail e st1 =>
      rw [hbd] at hbp
      simp only [bdState] at hbp
      refine ⟨t, ?_, hnd⟩
      simp only [genLoop, hbd, gmState]
      rw [hbp]
      exact hpool
    | uniq c1 st1 =>
      rw [hbd] at hbp
      simp only [bdState] at hbp
      refine ⟨t, ?_, hnd⟩
      simp only [genLoop, hbd, gmState]
      rw [hbp]
      exact hpool
    | ok data st1 =>
      rw [hbd] at hbp
      simp only [bdState] at hbp
      have hv1 : alGet data c.name = some i := bd_idx_val gen rnd retries deps i c hdep
        (hkey i) model.cols [] data st st1 hc hnames rfl hbd
      simp only [genLoop, hbd]
      refine ih (i + 1) { st1 with pool := poolAdd st1.pool model data } old (t ++ [data])
        ?_ ?_ ?_
      · show poolGet (poolAdd st1.pool model data) model = _
        rw [poolGet_poolAdd_same, hbp, hpool, List.append_assoc]
      · intro u hu
        rw [valuesAt_append, valuesAt_single_some hv1] at hu
        rcases List.mem_append.mp hu with hu | hu
        · exact Nat.lt_succ_of_lt (hmem u hu)
        · rcases List.mem_singleton.mp hu with rfl
          exact Nat.lt_succ_self _
      · rw [valuesAt_append, valuesAt_single_some hv1]
        rw [List.nodup_append]
        refine ⟨hnd, List.nodup_singleton i, ?_⟩
        intro u hu
        simp only [List.mem_singleton]
        intro hc'
        subst hc'
        exact absurd (hmem u hu) (Nat.lt_irrefl u)

theorem gl_none_nodup (gen : String → Nat → Nat) (rnd : Nat → Nat) (retries : Nat)
    (model : Model) (deps : List (String × Model)) (c : Col)
    (hc : c ∈ model.cols) (hnames : (model.cols.map (fun x => x.name)).Nodup)
    (hdep : alGet deps c.name = none)
    (hkey : ∀ j, get_mapper_f c j = none) :
    ∀ (rem i : Nat) (st : GenState) (old t : List Record),
      poolGet st.pool model = old ++ t →
      valuesAt t c.name = [] →
      ∃ t', poolGet (gmState (genLoop gen rnd retries model deps rem i st)).pool model =
        old ++ t' ∧ (valuesAt t' c.name).Nodup := by
  intro rem
  induction rem with
  | zero =>
    intro i st old t hpool hnil
    exact ⟨t, by simpa [genLoop, gmState] using hpool, by rw [hnil]; exact List.nodup_nil⟩
  | succ r ih =>
    intro i st old t hpool hnil
    have hbp := bd_pool gen rnd retries deps i model.cols [] st
    cases hbd : buildData gen rnd retries deps i model.cols [] st with
    | fail e st1 =>
      rw [hbd] at hbp
      simp only [bdState] at hbp
      refine ⟨t, ?_, by rw [hnil]; exact List.nodup_nil⟩
      simp only [genLoop, hbd, gmState]
      rw [hbp]
      exact hpool
    | uniq c1 st1 =>
      rw [hbd] at hbp
      simp only [bdState] at hbp
      refine ⟨t, ?_, by rw [hnil]; exact List.nodup_nil⟩
      simp only [genLoop, hbd, gmState]
      rw [hbp]
      exact hpool
    | ok data st1 =>
      rw [hbd] at hbp
      simp only [bdState] at hbp
      have hv1 : alGet data c.name = none := bd_none_val gen rnd retries deps i c hdep
        hkey model.cols [] data st st1 hc hnames rfl hbd
      simp only [genLoop, hbd]
      refine ih (i + 1) { st1 with pool := poolAdd st1.pool model data } old (t ++ [data])
        ?_ ?_
      · show poolGet (poolAdd st1.pool model data) model = _
        rw [poolGet_poolAdd_same, hbp, hpool, List.append_assoc]
      · rw [valuesAt_append, valuesAt_single_none hv1, hnil]
        rfl

/-- C5: for every generation run and every column declared unique that
is not wired as a foreign key, no two records generated for the same
(entity, column) pair receive equal synthesized values within that run:
the records an invocation of `generate_model` adds to the pool carry
pairwise distinct values at that column. -/
theorem C5_unique_values_distinct (gen : String → Nat → Nat) (rnd : Nat → Nat)
    (retries : Nat) (entry : Entry) (amount : Nat) (st : GenState) (c : Col)
    (hc : c ∈ entry.1.cols) (hu : c.unique = true)
    (hnames : (entry.1.cols.map (fun x => x.name)).Nodup)
    (hdep : alGet entry.2 c.name = none) :
    ∃ t, poolGet (gmState (generate_model gen rnd retries entry amount st)).pool entry.1 =
      poolGet st.pool entry.1 ++ t ∧ (valuesAt t c.name).Nodup := by
  unfold generate_model
  rcases mapper_cases c with hm | ⟨key, hm⟩ | hm
  · exact gl_idx_nodup gen rnd retries entry.1 entry.2 c hc hnames hdep hm amount 0
      { st with emitted := [] } (poolGet st.pool entry.1) [] (by simp)
      (fun v hv => absurd hv (by simp [valuesAt])) List.nodup_nil
  · rw [hu] at hm
    exact gl_call_nodup gen rnd retries entry.1 entry.2 c key hc hnames hdep hm amount 0
      { st with emitted := [] } (poolGet st.pool entry.1) [] (by simp)
      (fun v hv => absurd hv (by simp [valuesAt])) List.nodup_nil
  · exact gl_none_nodup gen rnd retries entry.1 entry.2 c hc hnames hdep hm amount 0
      { st with emitted := [] } (poolGet st.pool entry.1) [] (by simp) (by simp [valuesAt])

theorem C5_witness :
    ((mkCol "email" false false true .string none) ∈ userModel.cols) ∧
    (mkCol "email" false false true .string none).unique = true ∧
    (userModel.cols.map (fun x => x.name)).Nodup ∧
    alGet ([] : List (String × Model)) (mkCol "email" false false true .string none).name = none ∧
    (∃ t, poolGet (gmState (generate_model genSeq rnd0 3 (userModel, []) 2 st0)).pool userModel =
      poolGet st0.pool userModel ++ t ∧
      (valuesAt t (mkCol "email" false false true .string none).name).Nodup) :=
  ⟨by decide, rfl, by decide, rfl,
    C5_unique_values_distinct genSeq rnd0 3 (userModel, []) 2 st0
      (mkCol "email" false false true .string none) (by decide) rfl (by decide) rfl⟩

/-! ## Claim C3 -/

/-- C3 (amended): the created-records registry (`created_models`) is a
process-global mutable pool, not scoped to one run: a generation run
never clears it, at start or end; it only appends to the pool contents
it finds, so the records of an earlier run in the same process are
still in the pool a later run reads foreign-key targets from. -/
theorem C3_pool_is_process_global (gen : String → Nat → Nat) (rnd : Nat → Nat)
    (retries : Nat) (ms : List Model) (amount : Nat) (st : GenState) :
    ∀ m', ∃ t, poolGet (runScript gen rnd retries ms amount st).st.pool m' =
      poolGet st.pool m' ++ t :=
  fun m' => runScript_pool_extends gen rnd retries ms amount st m'

/-- C3 counterexample to the claim as stated: the pool does not start
empty at each invocation and is not discarded at run end. After one run
generating 1 record of the entity, a second run in the same process
operates on the pool the first run left behind: it ends with 2 records
for the entity, the first of which is the record of run one. Under the
claimed per-run scoping, each run would end with exactly the 1 record
it generated itself. -/
theorem C3_counterexample :
    (poolGet (runScript genSeq rnd0 3 [exhModel] 1 st0).st.pool exhModel).length = 1 ∧
    (poolGet (runScript genSeq rnd0 3 [exhModel] 1
        (runScript genSeq rnd0 3 [exhModel] 1 st0).st).st.pool exhModel).length = 2 ∧
    (poolGet (runScript genSeq rnd0 3 [exhModel] 1
        (runScript genSeq rnd0 3 [exhModel] 1 st0).st).st.pool exhModel).take 1 =
      poolGet (runScript genSeq rnd0 3 [exhModel] 1 st0).st.pool exhModel :=
  ⟨by decide, by decide, by decide⟩

/-! ## Claim C4 -/

/-- C4 (amended): when the unique-value pool is exhausted while
generating records for an entity, generation stops for that entity and
that entity alone: the warning printed names the entity and the failing
column, the records already produced for the entity are kept in the
pool, the pools of all other entities are untouched, and the run
continues to the next entity instead of failing as a whole. (The code
does not report how many records it managed to produce; see the
counterexample.) -/
theorem C4_exhaustion_stops_entity_only (gen : String → Nat → Nat) (rnd : Nat → Nat)
    (retries : Nat) (entry : Entry) (amount : Nat) (st st' : GenState) (w : String)
    (h : generate_model gen rnd retries entry amount st = .done st' (some w)) :
    (∃ c ∈ entry.1.cols, w = warnMsg entry.1 c) ∧
    (∀ m', m' ≠ entry.1 → poolGet st'.pool m' = poolGet st.pool m') ∧
    (∃ t, poolGet st'.pool entry.1 = poolGet st.pool entry.1 ++ t) ∧
    (∀ rest, runAll gen rnd retries amount (entry :: rest) st =
      ⟨(runAll gen rnd retries amount rest st').st,
       w :: (runAll gen rnd retries amount rest st').warns,
       (runAll gen rnd retries amount rest st').err⟩) := by
  refine ⟨?_, ?_, ?_, ?_⟩
  · unfold generate_model at h
    exact gl_warn gen rnd retries entry.1 entry.2 amount 0 _ st' w h
  · intro m' hm
    have := gm_pool_other gen rnd retries entry amount st m' hm
    rw [h] at this
    simpa [gmState] using this
  · have := gm_pool_extends gen rnd retries entry amount st entry.1
    rw [h] at this
    simpa [gmState] using this
  · intro rest
    simp [runAll, h]

theorem C4_witness :
    generate_model genConst rnd0 2 (exhModel, []) 2 st0 =
      .done (GenState.mk [(exhModel, [[("id", 0), ("code", 0)]])] 3 0 [("words", [0])])
        (some (warnMsg exhModel (mkCol "code" false false true .string none))) ∧
    ((∃ c ∈ exhModel.cols,
        warnMsg exhModel (mkCol "code" false false true .string none) = warnMsg exhModel c) ∧
     (∀ m', m' ≠ (exhModel, ([] : List (String × Model))).1 →
        poolGet (GenState.mk [(exhModel, [[("id", 0), ("code", 0)]])] 3 0 [("words", [0])]).pool m' =
          poolGet st0.pool m') ∧
     (∃ t, poolGet (GenState.mk [(exhModel, [[("id", 0), ("code", 0)]])] 3 0 [("words", [0])]).pool
          (exhModel, ([] : List (String × Model))).1 =
        poolGet st0.pool (exhModel, ([] : List (String × Model))).1 ++ t) ∧
     (∀ rest, runAll genConst rnd0 2 2 ((exhModel, []) :: rest) st0 =
        ⟨(runAll genConst rnd0 2 2 rest
            (GenState.mk [(exhModel, [[("id", 0), ("code", 0)]])] 3 0 [("words", [0])])).st,
         warnMsg exhModel (mkCol "code" false false true .string none) ::
           (runAll genConst rnd0 2 2 rest
             (GenState.mk [(exhModel, [[("id", 0), ("code", 0)]])] 3 0 [("words", [0])])).warns,
         (runAll genConst rnd0 2 2 rest
            (GenState.mk [(exhModel, [[("id", 0), ("code", 0)]])] 3 0 [("words", [0])])).err⟩)) :=
  ⟨rfl, C4_exhaustion_stops_entity_only genConst rnd0 2 (exhModel, []) 2 st0
    (GenState.mk [(exhModel, [[("id", 0), ("code", 0)]])] 3 0 [("words", [0])])
    (warnMsg exhModel (mkCol "code" false false true .string none)) rfl⟩

/-- C4 counterexample to the claim as stated: the populator does not
report how many records it managed to produce. In a run where the
unique pool is exhausted after exactly 1 record, the warning the code
prints contains no digit at all, so it cannot carry the produced
count. -/
theorem C4_counterexample :
    gmWarn (generate_model genConst rnd0 2 (exhModel, []) 2 st0) =
      some (warnMsg exhModel (mkCol "code" false false true .string none)) ∧
    (poolGet (gmState (generate_model genConst rnd0 2 (exhModel, []) 2 st0)).pool
      exhModel).length = 1 ∧
    ((warnMsg exhModel (mkCol "code" false false true .string none)).toList.all
      (fun ch => !ch.isDigit)) = true :=
  ⟨rfl, rfl, by decide⟩

/-! ## Claim C7 -/

/-- C7: for every foreign-key column of a record being generated, the
populator picks the referenced record from the pool entry of the
referenced entity at the index the `random.randint(0, len-1)` draw
reduces to (a uniformly distributed draw yields a uniformly distributed
index over the pool), storing that record's id; if that entity's pool
is empty it fails with the missing-dependency error (the uncaught
`ValueError` out of `randint` on an empty range), and that failure is
fatal and not retried: it propagates out of the record build and out of
`generate_model`, and aborts the whole run with the remaining entities
unprocessed. -/
theorem C7_fk_pick_or_fatal_missing (gen : String → Nat → Nat) (rnd : Nat → Nat)
    (retries : Nat) (deps : List (String × Model)) (i : Nat) (c : Col) (st : GenState)
    (dm : Model) (hdep : alGet deps c.name = some dm) :
    (poolGet st.pool dm = [] →
      colStep gen rnd retries deps i c st = .fail (.missingDependency dm.tableName) st) ∧
    (∀ (h : ¬ (poolGet st.pool dm).length = 0),
      colStep gen rnd retries deps i c st =
        .val (recordId ((poolGet st.pool dm).get
            ⟨rnd st.rpos % (poolGet st.pool dm).length, Nat.mod_lt _ (Nat.pos_of_ne_zero h)⟩))
          { st with rpos := st.rpos + 1 }) ∧
    (∀ (e : GErr) (st1 : GenState) (cs : List Col) (data : Record),
      colStep gen rnd retries deps i c st = .fail e st1 →
      buildData gen rnd retries deps i (c :: cs) data st = .fail e st1) ∧
    (∀ (model : Model) (e : GErr) (st1 : GenState) (rem ii : Nat) (stx : GenState),
      buildData gen rnd retries deps ii model.cols [] stx = .fail e st1 →
      genLoop gen rnd retries model deps (rem + 1) ii stx = .fail e st1) ∧
    (∀ (er : GErr) (st2 : GenState) (entry : Entry) (rest : List Entry) (amount : Nat)
      (stx : GenState),
      generate_model gen rnd retries entry amount stx = .fail er st2 →
      runAll gen rnd retries amount (entry :: rest) stx = ⟨st2, [], some er⟩) := by
  refine ⟨?_, ?_, ?_, ?_, ?_⟩
  · intro hp
    simp [colStep, hdep, hp]
  · intro h
    simp only [colStep, hdep]
    rw [dif_neg h]
  · intro e st1 cs data hcs
    simp [buildData, hcs]
  · intro model e st1 rem ii stx hbd
    simp [genLoop, hbd]
  · intro er st2 entry rest amount stx hgm
    simp [runAll, hgm]

theorem C7_witness :
    alGet [("user_id", userModel)]
      (mkCol "user_id" false false false .integer (some "users")).name = some userModel ∧
    poolGet st0.pool userModel = [] ∧
    colStep genSeq rnd0 3 [("user_id", userModel)] 0
      (mkCol "user_id" false false false .integer (some "users")) st0 =
      .fail (.missingDependency "users") st0 :=
  ⟨rfl, rfl,
    (C7_fk_pick_or_fatal_missing genSeq rnd0 3 [("user_id", userModel)] 0
      (mkCol "user_id" false false false .integer (some "users")) st0 userModel rfl).1 rfl⟩

end TestData
